import Mathlib

/-!
Shallow embedding of the JIRA-markup to Markdown conversion engine of
this repository (the MarkdownWriter methods and the free functions
convertBoldMarkup, convertItalicMarkup, convertStrikethroughMarkup, and
IsImageFile).  Text is modelled as a list of characters; every delimiter
the source compares is a single ASCII character, so the character-level
model is faithful to the byte-level Go code (UTF-8 continuation bytes
can never equal an ASCII delimiter).  Strings from the source are
embedded with the helper below.
-/

set_option linter.unusedVariables false

/-- Text is a list of characters. -/
abbrev Str := List Char

/-- Embed a string literal as character-list text. -/
def str (s : String) : Str := s.data

/-- Go regexp character class backslash-s: tab, newline, form feed,
carriage return, space. -/
def isGoSpace (c : Char) : Bool :=
  c = ' ' || c = '\t' || c = '\n' || c = '\x0c' || c = '\r'

/-- Prepend a character to the first piece of a piece list (helper for
the splitter). -/
def consHead (c : Char) : List Str → List Str
  | [] => [[c]]
  | l :: ls => (c :: l) :: ls

/-- strings.Split on a single-character separator. -/
def splitCh (sep : Char) : Str → List Str
  | [] => [[]]
  | c :: r =>
    if c = sep then [] :: splitCh sep r
    else consHead c (splitCh sep r)

/-- strings.Join with a single-character separator. -/
def joinCh (sep : Char) : List Str → Str
  | [] => []
  | [l] => l
  | l :: ls => l ++ sep :: joinCh sep ls

/-- strings.Split(text, newline). -/
def splitNl : Str → List Str := splitCh '\n'

/-- strings.Join(lines, newline). -/
def joinNl : List Str → Str := joinCh '\n'

/-- Take the maximal prefix satisfying p together with the remainder. -/
def spanP (p : Char → Bool) : Str → Str × Str
  | [] => ([], [])
  | c :: r => if p c then ((spanP p r).1.cons c, (spanP p r).2) else ([], c :: r)

theorem splitCh_ne_nil (sep : Char) (s : Str) : splitCh sep s ≠ [] := by
  cases s with
  | nil => simp [splitCh]
  | cons c r =>
    simp only [splitCh]
    split
    · simp
    · cases h : splitCh sep r <;> simp [consHead]

theorem joinCh_cons (sep : Char) (l : Str) (ls : List Str) (h : ls ≠ []) :
    joinCh sep (l :: ls) = l ++ sep :: joinCh sep ls := by
  cases ls with
  | nil => exact absurd rfl h
  | cons a as => rfl

theorem joinCh_splitCh (sep : Char) (s : Str) :
    joinCh sep (splitCh sep s) = s := by
  induction s with
  | nil => rfl
  | cons c r ih =>
    simp only [splitCh]
    by_cases h : c = sep
    · rw [if_pos h, joinCh_cons sep [] _ (splitCh_ne_nil sep r), ih, h]
      rfl
    · rw [if_neg h]
      cases hs : splitCh sep r with
      | nil => exact absurd hs (splitCh_ne_nil sep r)
      | cons l ls =>
        cases ls with
        | nil =>
          have hl : l = r := by
            have h2 := ih
            rw [hs] at h2
            simpa [joinCh] using h2
          simp [consHead, joinCh, hl]
        | cons a as =>
          simp only [consHead, joinCh]
          have h2 := ih
          rw [hs, joinCh_cons sep l (a :: as) (by simp)] at h2
          rw [← h2]
          simp

theorem splitCh_of_not_mem (sep : Char) (s : Str) (h : sep ∉ s) :
    splitCh sep s = [s] := by
  induction s with
  | nil => rfl
  | cons c r ih =>
    simp only [splitCh]
    rw [if_neg (by rintro rfl; exact h (List.mem_cons_self c r))]
    rw [ih (fun hm => h (List.mem_cons_of_mem c hm))]
    rfl

theorem splitCh_append_cons (sep : Char) (a b : Str) :
    splitCh sep (a ++ sep :: b) = splitCh sep a ++ splitCh sep b := by
  induction a with
  | nil => simp [splitCh]
  | cons c r ih =>
    by_cases h : c = sep
    · subst h
      simp only [List.cons_append, splitCh, if_pos]
      exact congrArg (fun x => [] :: x) ih
    · simp only [List.cons_append, splitCh, if_neg h, List.append_eq]
      rw [ih]
      cases hs : splitCh sep r with
      | nil => exact absurd hs (splitCh_ne_nil sep r)
      | cons l ls => simp [consHead, hs]

theorem splitCh_joinCh (sep : Char) (ls : List Str) (h0 : ls ≠ [])
    (h : ∀ l ∈ ls, sep ∉ l) : splitCh sep (joinCh sep ls) = ls := by
  induction ls with
  | nil => exact absurd rfl h0
  | cons l ls ih =>
    cases ls with
    | nil => simpa [joinCh] using splitCh_of_not_mem sep l (h l (by simp))
    | cons a as =>
      rw [joinCh_cons sep l _ (by simp), splitCh_append_cons,
        splitCh_of_not_mem sep l (h l (by simp)),
        ih (by simp) (fun m hm => h m (List.mem_cons_of_mem l hm))]
      rfl

theorem not_mem_of_mem_splitCh (sep : Char) (s p : Str)
    (hp : p ∈ splitCh sep s) : sep ∉ p := by
  induction s generalizing p with
  | nil =>
    simp only [splitCh, List.mem_singleton] at hp
    subst hp; simp
  | cons c r ih =>
    simp only [splitCh] at hp
    by_cases h : c = sep
    · rw [if_pos h] at hp
      rcases List.mem_cons.mp hp with h1 | h1
      · subst h1; simp
      · exact ih p h1
    · rw [if_neg h] at hp
      cases hs : splitCh sep r with
      | nil => exact absurd hs (splitCh_ne_nil sep r)
      | cons l ls =>
        rw [hs] at hp
        simp only [consHead, List.mem_cons] at hp
        rcases hp with h1 | h1
        · subst h1
          intro hm
          rcases List.mem_cons.mp hm with h2 | h2
          · exact h h2.symm
          · exact ih l (by rw [hs]; exact List.mem_cons_self _ _) h2
        · exact ih p (by rw [hs]; exact List.mem_cons_of_mem l h1)

theorem mem_of_mem_splitCh (sep : Char) (s p : Str) (c : Char)
    (hp : p ∈ splitCh sep s) (hc : c ∈ p) : c ∈ s := by
  induction s generalizing p with
  | nil =>
    simp only [splitCh, List.mem_singleton] at hp
    subst hp; simp at hc
  | cons x r ih =>
    simp only [splitCh] at hp
    by_cases h : x = sep
    · rw [if_pos h] at hp
      rcases List.mem_cons.mp hp with h1 | h1
      · subst h1; simp at hc
      · exact List.mem_cons_of_mem x (ih p h1 hc)
    · rw [if_neg h] at hp
      cases hs : splitCh sep r with
      | nil => exact absurd hs (splitCh_ne_nil sep r)
      | cons l ls =>
        rw [hs] at hp
        simp only [consHead, List.mem_cons] at hp
        rcases hp with h1 | h1
        · subst h1
          rcases List.mem_cons.mp hc with h2 | h2
          · exact h2 ▸ List.mem_cons_self _ _
          · exact List.mem_cons_of_mem x
              (ih l (by rw [hs]; exact List.mem_cons_self _ _) h2)
        · exact List.mem_cons_of_mem x
            (ih p (by rw [hs]; exact List.mem_cons_of_mem l h1) hc)

theorem spanP_append (p : Char → Bool) (w rest : Str)
    (hw : ∀ x ∈ w, p x = true)
    (hr : ∀ c, rest.head? = some c → p c = false) :
    spanP p (w ++ rest) = (w, rest) := by
  induction w with
  | nil =>
    cases rest with
    | nil => rfl
    | cons c r => simp [spanP, hr c rfl]
  | cons a w ih =>
    have ha : p a = true := hw a (by simp)
    simp only [List.cons_append, spanP, ha, if_true, List.append_eq]
    rw [ih (fun x hx => hw x (List.mem_cons_of_mem a hx))]

/-- Repeat of a string, strings.Repeat in Go. -/
def repeatStr (n : Nat) (s : Str) : Str := (List.replicate n s).flatten

/-! ## List converter (convertJIRAListsToMarkdown) -/

/-- Parse one newline-free line against the Go pattern
caret backslash-s-star (M repeated 1 to 6) backslash-s-plus (dot-plus)
dollar, where M is the marker character, returning the marker count and
the captured content.  The leading whitespace and the marker run are
matched greedily; the backslash-s-plus is greedy with backtracking, so
when everything after the markers is whitespace the final whitespace
character is captured as the content. -/
def listParse (marker : Char) (l : Str) : Option (Nat × Str) :=
  let s1 := spanP (fun c => isGoSpace c) l
  let s2 := spanP (fun c => c = marker) s1.2
  let n := s2.1.length
  if 1 ≤ n ∧ n ≤ 6 then
    let s3 := spanP (fun c => isGoSpace c) s2.2
    if s3.1 = [] then none
    else if s3.2 ≠ [] then some (n, s3.2)
    else if 2 ≤ s3.1.length then some (n, s3.1.drop (s3.1.length - 1))
    else none
  else none

/-- One line of convertJIRAListsToMarkdown: bullets (asterisks) first,
then numbered lists (hashes), otherwise the line passes through. -/
def convertListLine (l : Str) : Str :=
  match listParse '*' l with
  | some (n, c) => repeatStr (n - 1) (str "    ") ++ str "- " ++ c
  | none =>
    match listParse '#' l with
    | some (n, c) => repeatStr (n - 1) (str "    ") ++ str "1. " ++ c
    | none => l

/-- convertJIRAListsToMarkdown from the source, line by line. -/
def convertJIRAListsToMarkdown (text : Str) : Str :=
  joinNl ((splitNl text).map convertListLine)

theorem spanP_decomp (p : Char → Bool) (s : Str) :
    (spanP p s).1 ++ (spanP p s).2 = s := by
  induction s with
  | nil => rfl
  | cons c r ih =>
    simp only [spanP]
    by_cases h : p c
    · simp [h, ih]
    · simp [h]

theorem listParse_marker (marker : Char) (w u c : Str) (n : Nat)
    (hm : isGoSpace marker = false)
    (hw : ∀ x ∈ w, isGoSpace x = true)
    (hn1 : 1 ≤ n) (hn6 : n ≤ 6)
    (hu0 : u ≠ []) (hu : ∀ x ∈ u, isGoSpace x = true)
    (hc0 : c ≠ []) (hc : ∀ h, c.head? = some h → isGoSpace h = false) :
    listParse marker (w ++ List.replicate n marker ++ u ++ c)
      = some (n, c) := by
  have hrep : ∀ x ∈ List.replicate n marker, (x = marker) = True := by
    intro x hx
    simp [List.eq_of_mem_replicate hx]
  have h1 : spanP (fun c => isGoSpace c) (w ++ (List.replicate n marker ++ (u ++ c)))
      = (w, List.replicate n marker ++ (u ++ c)) := by
    apply spanP_append _ _ _ hw
    intro d hd
    cases nn : n with
    | zero => omega
    | succ m =>
      rw [nn] at hd
      simp only [List.replicate, List.cons_append, List.head?] at hd
      cases hd
      exact hm
  have huh : ∀ d, (u ++ c).head? = some d → (d = marker) = False := by
    intro d hd
    cases u with
    | nil => exact absurd rfl hu0
    | cons a as =>
      simp only [List.cons_append, List.head?] at hd
      cases hd
      simp only [eq_iff_iff, iff_false]
      intro he
      rw [he] at hu
      rw [hu marker (by simp)] at hm
      exact Bool.true_eq_false.mp hm
  have h2 : spanP (fun c => decide (c = marker)) (List.replicate n marker ++ (u ++ c))
      = (List.replicate n marker, u ++ c) := by
    apply spanP_append
    · intro x hx
      simp [List.eq_of_mem_replicate hx]
    · intro d hd
      simp [show (d = marker) = False from huh d hd]
  have h3 : spanP (fun c => isGoSpace c) (u ++ c) = (u, c) :=
    spanP_append _ _ _ hu hc
  have e1 : w ++ List.replicate n marker ++ u ++ c
      = w ++ (List.replicate n marker ++ (u ++ c)) := by
    simp [List.append_assoc]
  simp only [listParse, e1, h1, h2, h3, List.length_replicate]
  rw [if_pos ⟨hn1, hn6⟩, if_neg hu0, if_pos hc0]

theorem listParse_other (m1 m2 : Char) (w u c : Str) (n : Nat)
    (hm : isGoSpace m2 = false) (hne : m2 ≠ m1)
    (hw : ∀ x ∈ w, isGoSpace x = true) (hn1 : 1 ≤ n) :
    listParse m1 (w ++ List.replicate n m2 ++ u ++ c) = none := by
  have h1 : spanP (fun c => isGoSpace c) (w ++ (List.replicate n m2 ++ (u ++ c)))
      = (w, List.replicate n m2 ++ (u ++ c)) := by
    apply spanP_append _ _ _ hw
    intro d hd
    cases nn : n with
    | zero => omega
    | succ k =>
      rw [nn] at hd
      simp only [List.replicate, List.cons_append, List.head?] at hd
      cases hd
      exact hm
  have h2 : spanP (fun c => decide (c = m1)) (List.replicate n m2 ++ (u ++ c))
      = ([], List.replicate n m2 ++ (u ++ c)) := by
    cases nn : n with
    | zero => omega
    | succ k =>
      simp only [List.replicate, List.cons_append, spanP]
      rw [if_neg (by simp [hne])]
      rfl
  have e1 : w ++ List.replicate n m2 ++ u ++ c
      = w ++ (List.replicate n m2 ++ (u ++ c)) := by
    simp [List.append_assoc]
  simp only [listParse, e1, h1, h2]
  simp

/-- C3: a line whose marker is 1-6 asterisks (optionally after leading
whitespace) followed by whitespace and content converts to (count - 1)
four-space indent units, then a dash marker and the content; hash
markers convert to the literal numbered marker the same way; other
lines pass through; and the documented two-line example converts as the
spec shows. -/
theorem c3_list_conversion :
    (∀ w u c : Str, ∀ n : Nat,
      (∀ x ∈ w, isGoSpace x = true) → 1 ≤ n → n ≤ 6 →
      u ≠ [] → (∀ x ∈ u, isGoSpace x = true) →
      c ≠ [] → (∀ h, c.head? = some h → isGoSpace h = false) →
      convertListLine (w ++ List.replicate n '*' ++ u ++ c)
          = repeatStr (n - 1) (str "    ") ++ str "- " ++ c ∧
      convertListLine (w ++ List.replicate n '#' ++ u ++ c)
          = repeatStr (n - 1) (str "    ") ++ str "1. " ++ c) ∧
    (∀ l : Str, listParse '*' l = none → listParse '#' l = none →
      convertListLine l = l) ∧
    convertJIRAListsToMarkdown (str "* item1\n** item2")
      = str "- item1\n    - item2" := by
  refine ⟨?_, ?_, by decide⟩
  · intro w u c n hw hn1 hn6 hu0 hu hc0 hc
    constructor
    · rw [convertListLine,
        listParse_marker '*' w u c n (by decide) hw hn1 hn6 hu0 hu hc0 hc]
    · rw [convertListLine,
        listParse_other '*' '#' w u c n (by decide) (by decide) hw hn1,
        listParse_marker '#' w u c n (by decide) hw hn1 hn6 hu0 hu hc0 hc]
  · intro l h1 h2
    rw [convertListLine, h1, h2]

/-- Witness for c3_list_conversion at concrete inputs. -/
theorem c3_list_conversion_witness :
    convertListLine (str "** item2") = str "    - item2" ∧
    convertListLine (str "# one") = str "1. one" := by
  constructor
  · have h := (c3_list_conversion.1 [] [' '] (str "item2") 2
      (by decide) (by decide) (by decide) (by decide) (by decide)
      (by decide) (by decide)).1
    exact h
  · have h := (c3_list_conversion.1 [] [' '] (str "one") 1
      (by decide) (by decide) (by decide) (by decide) (by decide)
      (by decide) (by decide)).2
    exact h

/-! ## List-line protection (protectListLines / restoreListLines) -/

/-- True when the line matches the bullet or the numbered list pattern
(the guard of protectListLines). -/
def isListLine (l : Str) : Bool :=
  (listParse '*' l).isSome || (listParse '#' l).isSome

/-- Placeholder token produced by protectListLines for line index i. -/
def listTok (i : Nat) : Str :=
  str "___LIST_PLACEHOLDER_" ++ Nat.toDigits 10 i ++ str "___"

/-- Loop body of protectListLines: i is the index of the current line in
the full line list (the range variable of the Go loop), and the token is
named after that line index. -/
def protectGo : Nat → List Str → (List Str × List Str)
  | _, [] => ([], [])
  | i, l :: ls =>
    let rest := protectGo (i + 1) ls
    if isListLine l then (listTok i :: rest.1, l :: rest.2)
    else (l :: rest.1, rest.2)

/-- protectListLines from the source: list lines are replaced by
placeholder tokens; the protected lines are returned in order. -/
def protectListLines (text : Str) : Str × List Str :=
  let r := protectGo 0 (splitNl text)
  (joinNl r.1, r.2)

/-- strings.Replace with count 1: replace the first occurrence of old
only.  (With an empty old Go inserts new at the start; the engine never
passes an empty old.) -/
def replaceFirst (old new : Str) : Str → Str
  | [] => []
  | c :: r =>
    if old.isPrefixOf (c :: r) then new ++ (c :: r).drop old.length
    else c :: replaceFirst old new r

/-- Loop body of restoreListLines: i is the index of the current line in
the protected list (creation order). -/
def restoreGo : Nat → List Str → Str → Str
  | _, [], t => t
  | i, l :: ls, t => restoreGo (i + 1) ls (replaceFirst (listTok i) l t)

/-- restoreListLines from the source: substitutes placeholder i by the
i-th protected line, first occurrence only. -/
def restoreListLines (text : Str) (prot : List Str) : Str :=
  restoreGo 0 prot text

/-- C1 fails on the code: protectListLines names its tokens after the
line index of the protected line while restoreListLines looks tokens up
by creation order, so whenever a list line does not sit at the line
index equal to its creation rank the token is never consumed and the
round trip leaves a literal placeholder in the text.  The input below is
the repository's own TestProtectListLines fixture (ASCII variant): the
second list line sits at line index 2 but is stored at creation rank 1. -/
theorem c1_protect_restore_not_lossless :
    restoreListLines (protectListLines (str "* a\nx\n** b")).1
        (protectListLines (str "* a\nx\n** b")).2
      = str "* a\nx\n___LIST_PLACEHOLDER_2___" ∧
    restoreListLines (protectListLines (str "* a\nx\n** b")).1
        (protectListLines (str "* a\nx\n** b")).2
      ≠ str "* a\nx\n** b" := by
  constructor
  · decide
  · decide

/-! ## Line-break normalization (step 15 of convertJIRAMarkupToMarkdown) -/

/-- Final stage of convertJIRAMarkupToMarkdown: the Go code replaces
every match of the pattern (dot-plus followed by newline) by the capture,
two spaces, and the newline.  Since dot matches anything but a newline
and plus is greedy, each maximal nonempty newline-free run that is
followed by a newline receives the two-space suffix; an empty line keeps
its newline unchanged.  acc is the current line read so far, in reverse. -/
def normalizeGo (acc : Str) : Str → Str
  | [] => acc.reverse
  | c :: r =>
    if c = '\n' then
      (if acc = [] then [] else acc.reverse ++ [' ', ' ']) ++ '\n' :: normalizeGo [] r
    else normalizeGo (c :: acc) r

/-- Hard-break normalization over the whole text. -/
def normalizeLineBreaks (text : Str) : Str := normalizeGo [] text

/-- Mark one line the way the normalization stage does: nonempty lines
that are followed by a newline get the two-space hard-break marker. -/
def markLine (l : Str) : Str := if l = [] then [] else l ++ [' ', ' ']

/-- Apply f to every element except the last one. -/
def mapInit (f : Str → Str) : List Str → List Str
  | [] => []
  | [l] => [l]
  | l :: ls => f l :: mapInit f ls

theorem normalizeGo_no_nl (a : Str) (acc : Str) (h : '\n' ∉ a) :
    normalizeGo acc a = acc.reverse ++ a := by
  induction a generalizing acc with
  | nil => simp [normalizeGo]
  | cons c r ih =>
    have hc : ¬(c = '\n') := fun he => h (he ▸ List.mem_cons_self c r)
    simp only [normalizeGo, if_neg hc]
    rw [ih (c :: acc) (fun hm => h (List.mem_cons_of_mem c hm))]
    simp

theorem normalizeGo_nl (a b : Str) (acc : Str) (h : '\n' ∉ a) :
    normalizeGo acc (a ++ '\n' :: b)
      = markLine (acc.reverse ++ a) ++ '\n' :: normalizeGo [] b := by
  induction a generalizing acc with
  | nil =>
    have he : normalizeGo acc ('\n' :: b)
        = (if acc = [] then [] else acc.reverse ++ [' ', ' '])
            ++ '\n' :: normalizeGo [] b := by
      simp [normalizeGo]
    rw [List.nil_append, he, markLine, List.append_nil]
    by_cases ha : acc = []
    · subst ha; simp
    · rw [if_neg ha, if_neg (by simpa using ha)]
  | cons c r ih =>
    have hc : ¬(c = '\n') := fun he => h (he ▸ List.mem_cons_self c r)
    simp only [List.cons_append, normalizeGo, if_neg hc, List.append_eq]
    rw [ih (c :: acc) (fun hm => h (List.mem_cons_of_mem c hm))]
    simp

theorem mapInit_cons (f : Str → Str) (l a : Str) (as : List Str) :
    mapInit f (l :: a :: as) = f l :: mapInit f (a :: as) := rfl

theorem mapInit_ne_nil (f : Str → Str) (l : Str) (ls : List Str) :
    mapInit f (l :: ls) ≠ [] := by
  cases ls <;> simp [mapInit]

theorem normalize_joinNl (ls : List Str) (h0 : ls ≠ [])
    (h : ∀ l ∈ ls, '\n' ∉ l) :
    normalizeLineBreaks (joinNl ls) = joinNl (mapInit markLine ls) := by
  induction ls with
  | nil => exact absurd rfl h0
  | cons l ls ih =>
    cases ls with
    | nil =>
      show normalizeGo [] (joinNl [l]) = joinNl (mapInit markLine [l])
      simp only [joinNl, joinCh, mapInit]
      simpa using normalizeGo_no_nl l [] (h l (by simp))
    | cons a as =>
      show normalizeGo [] (joinNl (l :: a :: as)) = _
      rw [show joinNl (l :: a :: as) = l ++ '\n' :: joinNl (a :: as) from
        joinCh_cons '\n' l (a :: as) (by simp)]
      rw [normalizeGo_nl l (joinNl (a :: as)) [] (h l (by simp))]
      rw [mapInit_cons,
        show joinNl (markLine l :: mapInit markLine (a :: as))
            = markLine l ++ '\n' :: joinNl (mapInit markLine (a :: as)) from
          joinCh_cons '\n' _ _ (mapInit_ne_nil _ _ _)]
      rw [show normalizeGo [] (joinNl (a :: as))
          = normalizeLineBreaks (joinNl (a :: as)) from rfl]
      rw [ih (by simp) (fun m hm => h m (List.mem_cons_of_mem l hm))]
      simp

/-- C9 is too strong as stated: an empty line that is followed by a
newline receives no hard-break marker, because the Go pattern requires
at least one character before the newline.  At the input consisting of a
single newline the first (empty) line is followed by a newline in the
stage's input, yet the output is unchanged and its first line does not
end with the two-space marker. -/
theorem c9_counterexample :
    normalizeLineBreaks (str "\n") = str "\n" ∧
    (splitNl (normalizeLineBreaks (str "\n"))).getD 0 (str "?") = ([] : Str) ∧
    ¬ (str "  ") <:+ ([] : Str) := by
  refine ⟨by decide, by decide, by decide⟩

/-- C9 amended: the final normalization stage appends the two-space
hard-break marker to every nonempty line that is followed by a newline
in its input, and leaves empty lines and the final line unchanged:
normalization equals splitting into lines, marking every line but the
last with markLine (which appends two spaces exactly to nonempty lines)
and joining back. -/
theorem c9_hard_break_markers (t : Str) :
    normalizeLineBreaks t = joinNl (mapInit markLine (splitNl t)) := by
  have h := normalize_joinNl (splitNl t) (splitCh_ne_nil '\n' t)
    (fun l hl => not_mem_of_mem_splitCh '\n' t l hl)
  have hj : joinNl (splitNl t) = t := joinCh_splitCh '\n' t
  rwa [hj] at h

/-! ## Regex replace-all scanning (ReplaceAllStringFunc) -/

/-- ReplaceAllStringFunc-style scan: at each position try the matcher; on
a match emit its replacement and continue after the match, otherwise copy
one character.  Every successful match consumes at least one character,
so fuel equal to the text length suffices; the wrappers below always pass
exactly that. -/
def scanRepl (tm : Str → Option (Str × Str)) : Nat → Str → Str
  | 0, s => s
  | _ + 1, [] => []
  | f + 1, c :: r =>
    match tm (c :: r) with
    | some (repl, rest) => repl ++ scanRepl tm f rest
    | none => c :: scanRepl tm f r

theorem scanRepl_nil (tm : Str → Option (Str × Str)) (f : Nat) :
    scanRepl tm f [] = [] := by
  cases f <;> rfl

theorem scanRepl_single (tm : Str → Option (Str × Str)) (f : Nat)
    (s repl : Str) (h : tm s = some (repl, []))
    (hf : 1 ≤ f) (hs : s ≠ []) : scanRepl tm f s = repl := by
  cases s with
  | nil => exact absurd rfl hs
  | cons c r =>
    cases f with
    | zero => omega
    | succ f => simp [scanRepl, h, scanRepl_nil]

/-! ## Mention conversion (step 7 of convertJIRAMarkupToMarkdown) -/

/-- UserMapping and AttachmentMap are finite maps modelled as
association lists (first match wins, as for unique-keyed Go maps). -/
abbrev SMap := List (Str × Str)

/-- The literal lead-in of the mention pattern. -/
def mentionTag : Str := str "[~accountid:"

/-- Replacement for one mention match: the display name from UserMapping
when the account id is mapped to a nonempty name, otherwise the account
id itself. -/
def mentionRepl (m : SMap) (accountID : Str) : Str :=
  match m.lookup accountID with
  | some userName =>
    if userName ≠ [] then
      str "<span class=\"mention\">@" ++ userName ++ str "</span>"
    else
      str "<span class=\"mention\">@" ++ accountID ++ str "</span>"
  | none => str "<span class=\"mention\">@" ++ accountID ++ str "</span>"

/-- Try to match the mention pattern (open bracket, tilde accountid
colon, one or more non-bracket characters, close bracket) at the head of
the text. -/
def tryMention (m : SMap) (s : Str) : Option (Str × Str) :=
  if mentionTag.isPrefixOf s then
    if (spanP (fun c => decide (c ≠ ']')) (s.drop mentionTag.length)).2.head?
          = some ']'
        ∧ (spanP (fun c => decide (c ≠ ']'))
            (s.drop mentionTag.length)).1 ≠ [] then
      some (mentionRepl m
          (spanP (fun c => decide (c ≠ ']')) (s.drop mentionTag.length)).1,
        (spanP (fun c => decide (c ≠ ']')) (s.drop mentionTag.length)).2.tail)
    else none
  else none

/-- Mention conversion over the whole text. -/
def convertMentions (m : SMap) (text : Str) : Str :=
  scanRepl (tryMention m) text.length text

theorem isPrefixOf_append_self (l t : Str) : l.isPrefixOf (l ++ t) = true := by
  induction l with
  | nil => simp [List.isPrefixOf]
  | cons c r ih => simp [List.isPrefixOf, ih]

theorem tryMention_at (m : SMap) (id post : Str) (h1 : id ≠ [])
    (h2 : ']' ∉ id) :
    tryMention m (mentionTag ++ (id ++ ']' :: post))
      = some (mentionRepl m id, post) := by
  have hpre : mentionTag.isPrefixOf (mentionTag ++ (id ++ ']' :: post))
      = true := isPrefixOf_append_self ..
  have hdrop : (mentionTag ++ (id ++ ']' :: post)).drop mentionTag.length
      = id ++ ']' :: post := List.drop_left ..
  have hspan : spanP (fun c => decide (c ≠ ']')) (id ++ ']' :: post)
      = (id, ']' :: post) := by
    apply spanP_append
    · intro x hx
      simp
      exact fun he => h2 (he ▸ hx)
    · intro c hc
      have hcv : c = ']' := by
        simp only [List.head?] at hc
        exact (Option.some.inj hc).symm
      simp [hcv]
  rw [tryMention, if_pos hpre, hdrop, hspan, if_pos ⟨rfl, h1⟩]
  rfl

theorem tryMention_exact (m : SMap) (id : Str) (h1 : id ≠ [])
    (h2 : ']' ∉ id) :
    tryMention m (str "[~accountid:" ++ id ++ str "]")
      = some (mentionRepl m id, []) :=
  tryMention_at m id [] h1 h2

theorem scanRepl_match (tm : Str → Option (Str × Str)) (f : Nat)
    (s repl rest : Str) (hs : s ≠ []) (h : tm s = some (repl, rest)) :
    scanRepl tm (f + 1) s = repl ++ scanRepl tm f rest := by
  cases s with
  | nil => exact absurd rfl hs
  | cons c r => simp [scanRepl, h]

theorem scanRepl_fuel (tm : Str → Option (Str × Str))
    (hm : ∀ s r rest, tm s = some (r, rest) → rest.length < s.length) :
    ∀ (n : Nat) (s : Str), s.length ≤ n →
      ∀ f g, s.length ≤ f → s.length ≤ g →
        scanRepl tm f s = scanRepl tm g s := by
  intro n
  induction n with
  | zero =>
    intro s hs f g _ _
    have h0 : s = [] := List.eq_nil_of_length_eq_zero (Nat.le_zero.mp hs)
    subst h0
    rw [scanRepl_nil, scanRepl_nil]
  | succ n ih =>
    intro s hs f g hf hg
    cases s with
    | nil => rw [scanRepl_nil, scanRepl_nil]
    | cons c r =>
      cases f with
      | zero => simp at hf
      | succ f =>
        cases g with
        | zero => simp at hg
        | succ g =>
          cases htm : tm (c :: r) with
          | none =>
            rw [show scanRepl tm (f + 1) (c :: r) = c :: scanRepl tm f r
              from by simp [scanRepl, htm],
              show scanRepl tm (g + 1) (c :: r) = c :: scanRepl tm g r
              from by simp [scanRepl, htm]]
            have hr : r.length ≤ n := by
              simp only [List.length_cons] at hs
              omega
            rw [ih r hr f g (by simp only [List.length_cons] at hf; omega)
              (by simp only [List.length_cons] at hg; omega)]
          | some pr =>
            obtain ⟨repl, rest⟩ := pr
            have hlt := hm (c :: r) repl rest htm
            simp only [List.length_cons] at hlt hs hf hg
            rw [scanRepl_match tm f (c :: r) repl rest (by simp) htm,
              scanRepl_match tm g (c :: r) repl rest (by simp) htm,
              ih rest (by omega) f g (by omega) (by omega)]

theorem scanRepl_fuel_ge (tm : Str → Option (Str × Str))
    (hm : ∀ s r rest, tm s = some (r, rest) → rest.length < s.length)
    (f : Nat) (s : Str) (hf : s.length ≤ f) :
    scanRepl tm f s = scanRepl tm s.length s :=
  scanRepl_fuel tm hm s.length s le_rfl f s.length hf le_rfl

theorem tryMention_shrinks (m : SMap) (s r rest : Str)
    (h : tryMention m s = some (r, rest)) : rest.length < s.length := by
  rw [tryMention] at h
  by_cases hp : mentionTag.isPrefixOf s = true
  · rw [if_pos hp] at h
    by_cases hc : (spanP (fun c => decide (c ≠ ']'))
          (s.drop mentionTag.length)).2.head? = some ']'
        ∧ (spanP (fun c => decide (c ≠ ']'))
            (s.drop mentionTag.length)).1 ≠ []
    · rw [if_pos hc] at h
      have hrest : rest = (spanP (fun c => decide (c ≠ ']'))
          (s.drop mentionTag.length)).2.tail := by
        have := Option.some.inj h
        exact (congrArg Prod.snd this).symm
      have hd := spanP_decomp (fun c => decide (c ≠ ']'))
        (s.drop mentionTag.length)
      have hlen := congrArg List.length hd
      have h2ne : (spanP (fun c => decide (c ≠ ']'))
          (s.drop mentionTag.length)).2 ≠ [] := by
        intro he
        rw [he] at hc
        exact absurd hc.1 (by simp)
      have htail : ((spanP (fun c => decide (c ≠ ']'))
            (s.drop mentionTag.length)).2.tail).length
          = (spanP (fun c => decide (c ≠ ']'))
            (s.drop mentionTag.length)).2.length - 1 := by
        rw [List.length_tail]
      have hdl : (s.drop mentionTag.length).length
          = s.length - mentionTag.length := List.length_drop _ _
      rw [hrest, htail]
      have h2pos : 0 < (spanP (fun c => decide (c ≠ ']'))
          (s.drop mentionTag.length)).2.length :=
        List.length_pos.mpr h2ne
      simp only [List.length_append] at hlen
      have hslen : mentionTag.length ≤ s.length :=
        (List.isPrefixOf_iff_prefix.mp hp).length_le
      omega
    · rw [if_neg hc] at h
      exact absurd h (by simp)
  · rw [if_neg hp] at h
    exact absurd h (by simp)

theorem tryMention_none_of_head (m : SMap) (s : Str)
    (h : s.head? ≠ some '[') : tryMention m s = none := by
  have hcon : ¬ (mentionTag.isPrefixOf s = true) := by
    intro hp
    cases s with
    | nil => exact absurd hp (by decide)
    | cons c r =>
      rw [show mentionTag = '[' :: str "~accountid:" from rfl] at hp
      simp only [List.isPrefixOf, Bool.and_eq_true, beq_iff_eq] at hp
      exact h (by rw [show c = '[' from hp.1.symm]; rfl)
  rw [tryMention, if_neg hcon]

theorem scanRepl_no_match (tm : Str → Option (Str × Str)) :
    ∀ (pre s : Str) (f : Nat),
      (∀ (b : Str), b ≠ [] → b <:+ pre → tm (b ++ s) = none) →
      scanRepl tm (pre.length + f) (pre ++ s) = pre ++ scanRepl tm f s := by
  intro pre
  induction pre with
  | nil =>
    intro s f _
    simp
  | cons c r ih =>
    intro s f hnm
    have h0 : tm (c :: (r ++ s)) = none := by
      have := hnm (c :: r) (by simp) (List.suffix_refl _)
      simpa using this
    rw [show (c :: r).length + f = (r.length + f) + 1 from by
        simp only [List.length_cons]
        omega,
      List.cons_append,
      show scanRepl tm ((r.length + f) + 1) (c :: (r ++ s))
        = c :: scanRepl tm (r.length + f) (r ++ s) from by
        simp [scanRepl, h0],
      ih s f (fun b hb hbs => hnm b hb (hbs.trans (List.suffix_cons c r)))]
    rfl

theorem c8_mention_amended (m : SMap) (id : Str) (h1 : id ≠ [])
    (h2 : ']' ∉ id) :
    convertMentions m (str "[~accountid:" ++ id ++ str "]")
      = str "<span class=\"mention\">@" ++
          (match m.lookup id with
           | some userName => if userName ≠ [] then userName else id
           | none => id) ++ str "</span>" := by
  have hne : str "[~accountid:" ++ id ++ str "]" ≠ [] := by
    rw [show str "[~accountid:" = '[' :: str "~accountid:" from rfl]
    simp
  have hlen : 1 ≤ (str "[~accountid:" ++ id ++ str "]").length := by
    cases he : str "[~accountid:" ++ id ++ str "]" with
    | nil => exact absurd he hne
    | cons c r => simp
  have h := scanRepl_single (tryMention m)
    (str "[~accountid:" ++ id ++ str "]").length
    (str "[~accountid:" ++ id ++ str "]") (mentionRepl m id)
    (tryMention_exact m id h1 h2) hlen hne
  rw [convertMentions, h, mentionRepl]
  cases hl : m.lookup id with
  | none => simp
  | some userName =>
    by_cases hu : userName = []
    · simp [hu]
    · simp [hu]

/-- C8 fails on the code for an account id that is mapped to the empty
display name: the Go guard requires exists AND userName nonempty, so a
key present with an empty value falls back to the account id, while the
claim says any mapped key renders its display name. -/
theorem c8_counterexample :
    convertMentions [(str "abc", [])] (str "[~accountid:abc]")
        ≠ str "<span class=\"mention\">@</span>" ∧
    convertMentions [(str "abc", [])] (str "[~accountid:abc]")
        = str "<span class=\"mention\">@abc</span>" := by
  exact ⟨by decide, by decide⟩

/-- C8 amended: every mention in the text (here: a mention preceded by
any bracket-free context and followed by any text) renders the styled
span with the mapped display name when the account id is a key of
UserMapping with a NONEMPTY display name, and falls back to the account
id when the id is unmapped or mapped to the empty string; the
surrounding text before the mention is left unchanged and conversion
continues after it; the spec example with mapping abc to Taro renders
the Taro span. -/
theorem c8_mention_conversion (m : SMap) (pre id post : Str)
    (h1 : id ≠ []) (h2 : ']' ∉ id) (hpre : '[' ∉ pre) :
    convertMentions m (pre ++ str "[~accountid:" ++ id ++ str "]" ++ post)
      = pre ++ str "<span class=\"mention\">@" ++
          (match m.lookup id with
           | some userName => if userName ≠ [] then userName else id
           | none => id) ++ str "</span>" ++ convertMentions m post := by
  have htext : pre ++ str "[~accountid:" ++ id ++ str "]" ++ post
      = pre ++ (mentionTag ++ (id ++ ']' :: post)) := by
    rw [show (str "]" : Str) = [']'] from rfl,
      show mentionTag = str "[~accountid:" from rfl]
    simp [List.append_assoc]
  have hfail : ∀ (b : Str), b ≠ [] → b <:+ pre →
      tryMention m (b ++ (mentionTag ++ (id ++ ']' :: post))) = none := by
    intro b hb hbs
    apply tryMention_none_of_head
    cases b with
    | nil => exact absurd rfl hb
    | cons x xs =>
      intro hco
      have hx : x = '[' := by simpa using hco
      exact hpre (hx ▸ hbs.subset (List.mem_cons_self x xs))
  have hM1 : (mentionTag ++ (id ++ ']' :: post)).length
      = (id.length + post.length + 12) + 1 := by
    rw [List.length_append, List.length_append, List.length_cons,
      show mentionTag.length = 12 from rfl]
    omega
  have hMne : (mentionTag ++ (id ++ ']' :: post)) ≠ [] := by
    rw [show mentionTag = '[' :: str "~accountid:" from rfl]
    simp
  rw [convertMentions, htext,
    show (pre ++ (mentionTag ++ (id ++ ']' :: post))).length
      = pre.length + (mentionTag ++ (id ++ ']' :: post)).length from by simp,
    scanRepl_no_match (tryMention m) pre _ _ hfail, hM1,
    scanRepl_match (tryMention m) _ _ _ _ hMne (tryMention_at m id post h1 h2),
    scanRepl_fuel_ge (tryMention m)
      (fun s r rest h => tryMention_shrinks m s r rest h)
      (id.length + post.length + 12) post (by omega),
    mentionRepl]
  cases hl : m.lookup id with
  | none => simp [convertMentions]
  | some userName =>
    by_cases hu : userName = []
    · simp [hu, convertMentions]
    · simp [hu, convertMentions]

/-- Witness for c8_mention_conversion: the spec scenario with mapping
abc to Taro, alone and embedded in surrounding text. -/
theorem c8_mention_conversion_witness :
    convertMentions [(str "abc", str "Taro")] (str "[~accountid:abc]")
        = str "<span class=\"mention\">@Taro</span>" ∧
    convertMentions [(str "abc", str "Taro")] (str "Hi [~accountid:abc]!")
        = str "Hi <span class=\"mention\">@Taro</span>!" := by
  constructor
  · have h := c8_mention_conversion [(str "abc", str "Taro")] []
      (str "abc") [] (by decide) (by decide) (by decide)
    rw [show str "[~accountid:abc]"
        = [] ++ str "[~accountid:" ++ str "abc" ++ str "]" ++ [] from rfl]
    rw [h]
    decide
  · have h := c8_mention_conversion [(str "abc", str "Taro")] (str "Hi ")
      (str "abc") (str "!") (by decide) (by decide) (by decide)
    rw [show str "Hi [~accountid:abc]!"
        = str "Hi " ++ str "[~accountid:" ++ str "abc" ++ str "]" ++ str "!"
      from rfl]
    rw [h]
    decide

/-! ## Image references (replaceImageReferences / IsImageFile) -/

/-- filepath.Ext: the suffix beginning at the final dot in the final
path element; empty when the final element has no dot. -/
def extOf (s : Str) : Str :=
  match spanP (fun c => decide (c ≠ '.' ∧ c ≠ '/')) s.reverse with
  | (tl, '.' :: _) => '.' :: tl.reverse
  | _ => []

/-- The fixed image-extension set of IsImageFile. -/
def imageExts : List Str :=
  [str ".png", str ".jpg", str ".jpeg", str ".gif", str ".svg",
   str ".webp", str ".bmp", str ".ico"]

/-- IsImageFile from the source.  strings.ToLower is modelled by the
ASCII Char.toLower: the comparison set is ASCII, and no character
outside the ASCII letters lowercases onto the letters used by the set,
so the ASCII model decides the same memberships. -/
def IsImageFile (filename : Str) : Bool :=
  imageExts.contains ((extOf filename).map Char.toLower)

/-- Uppercase hexadecimal digit, as used by Go percent-encoding. -/
def hexDigitU (n : Nat) : Char :=
  if n < 10 then Char.ofNat (48 + n) else Char.ofNat (55 + n)

/-- UTF-8 encoding of one code point as byte values. -/
def utf8Bytes (n : Nat) : List Nat :=
  if n < 128 then [n]
  else if n < 2048 then [192 + n / 64, 128 + n % 64]
  else if n < 65536 then [224 + n / 4096, 128 + n / 64 % 64, 128 + n % 64]
  else [240 + n / 262144, 128 + n / 4096 % 64, 128 + n / 64 % 64, 128 + n % 64]

/-- Bytes that url.PathEscape leaves unescaped: ASCII alphanumerics,
dash, underscore, dot, tilde, dollar, ampersand, plus, colon, equals,
at-sign. -/
def pathByteAllowed (b : Nat) : Bool :=
  (48 ≤ b && b ≤ 57) || (97 ≤ b && b ≤ 122) || (65 ≤ b && b ≤ 90) ||
  b ∈ [45, 95, 46, 126, 36, 38, 43, 58, 61, 64]

/-- url.PathEscape: per UTF-8 byte, pass allowed bytes through and
percent-encode the rest with uppercase hexadecimal. -/
def pathEscape (s : Str) : Str :=
  (s.map (fun c =>
    ((utf8Bytes c.toNat).map (fun b =>
      if pathByteAllowed b then [Char.ofNat b]
      else ['%', hexDigitU (b / 16), hexDigitU (b % 16)])).flatten)).flatten

/-- The regexp capture requires the filename to end in a dot followed by
one or more ASCII alphanumerics, with at least one character before the
dot; backtracking always extends the capture to the whole span of
non-bang non-pipe characters, so a match exists exactly when that whole
span has this shape. -/
def hasDotAlnumSuffix (s1 : Str) : Bool :=
  match spanP Char.isAlphanum s1.reverse with
  | (_ :: _, '.' :: _ :: _) => true
  | _ => false

/-- Replacement for one image-reference match: unmapped filenames keep
the whole original match; mapped filenames render as a Markdown image
when IsImageFile accepts the original filename, else as a plain link;
the stored filename is path-escaped into the /attachments/ URL. -/
def imgRepl (am : SMap) (fname whole : Str) : Str :=
  match am.lookup fname with
  | none => whole
  | some saved =>
    if IsImageFile fname then
      str "![" ++ fname ++ str "](/attachments/" ++ pathEscape saved ++ str ")"
    else
      str "[" ++ fname ++ str "](/attachments/" ++ pathEscape saved ++ str ")"

/-- Try to match the image-reference pattern (bang, filename with a
dot-alnum extension, optional pipe attributes, bang) at the head of the
text. -/
def tryImgAttrs (am : SMap) (fname r2 : Str) : Option (Str × Str) :=
  let t := spanP (fun c => decide (c ≠ '!')) r2
  match t.2 with
  | '!' :: rest =>
    some (imgRepl am fname ('!' :: fname ++ '|' :: t.1 ++ ['!']), rest)
  | _ => none

def tryImg (am : SMap) (s : Str) : Option (Str × Str) :=
  match s with
  | '!' :: r =>
    let sp := spanP (fun c => decide (c ≠ '!' ∧ c ≠ '|')) r
    if sp.1 = [] then none
    else if hasDotAlnumSuffix sp.1 = false then none
    else
      match sp.2 with
      | '!' :: rest => some (imgRepl am sp.1 ('!' :: sp.1 ++ ['!']), rest)
      | '|' :: r2 => tryImgAttrs am sp.1 r2
      | _ => none
  | _ => none

/-- replaceImageReferences from the source, over the whole text. -/
def replaceImageReferences (text : Str) (am : SMap) : Str :=
  scanRepl (tryImg am) text.length text

theorem alnum_ne_special (c : Char) (h : Char.isAlphanum c = true) :
    c ≠ '!' ∧ c ≠ '|' ∧ c ≠ '.' ∧ c ≠ '/' := by
  refine ⟨?_, ?_, ?_, ?_⟩ <;> intro he <;> subst he <;> exact absurd h (by decide)

theorem reverse_fname (b e : Str) :
    (b ++ '.' :: e).reverse = e.reverse ++ '.' :: b.reverse := by
  simp

theorem extOf_fname (b e : Str) (he0 : e ≠ [])
    (he : ∀ c ∈ e, Char.isAlphanum c = true) :
    extOf (b ++ '.' :: e) = '.' :: e := by
  have hspan : spanP (fun c => decide (c ≠ '.' ∧ c ≠ '/'))
      (e.reverse ++ '.' :: b.reverse) = (e.reverse, '.' :: b.reverse) := by
    apply spanP_append
    · intro x hx
      have hx2 := he x (List.mem_reverse.mp hx)
      have h3 := alnum_ne_special x hx2
      simp [h3.2.2.1, h3.2.2.2]
    · intro c hc
      simp only [List.head?] at hc
      cases hc
      simp
  rw [extOf, reverse_fname, hspan]
  simp

theorem hasDotAlnumSuffix_fname (b e : Str) (hb0 : b ≠ []) (he0 : e ≠ [])
    (he : ∀ c ∈ e, Char.isAlphanum c = true) :
    hasDotAlnumSuffix (b ++ '.' :: e) = true := by
  have hspan : spanP Char.isAlphanum (e.reverse ++ '.' :: b.reverse)
      = (e.reverse, '.' :: b.reverse) := by
    apply spanP_append
    · intro x hx
      exact he x (List.mem_reverse.mp hx)
    · intro c hc
      simp only [List.head?] at hc
      cases hc
      decide
  rw [hasDotAlnumSuffix, reverse_fname, hspan]
  cases hre : e.reverse with
  | nil => exact absurd (by simpa using hre) he0
  | cons x xs =>
    cases hrb : b.reverse with
    | nil => exact absurd (by simpa using hrb) hb0
    | cons y ys => rfl

theorem tryImg_plain (am : SMap) (f : Str) (hf0 : f ≠ [])
    (hf : ∀ c ∈ f, c ≠ '!' ∧ c ≠ '|')
    (hsuf : hasDotAlnumSuffix f = true) :
    tryImg am ('!' :: (f ++ ['!']))
      = some (imgRepl am f (('!' :: f) ++ ['!']), []) := by
  have hspan : spanP (fun c => decide (c ≠ '!' ∧ c ≠ '|')) (f ++ ['!'])
      = (f, ['!']) := by
    apply spanP_append
    · intro x hx
      simp [(hf x hx).1, (hf x hx).2]
    · intro c hc
      simp only [List.head?] at hc
      cases hc
      simp
  simp only [tryImg]
  rw [hspan]
  simp [hf0, hsuf]

theorem tryImg_attrs (am : SMap) (f attrs : Str) (hf0 : f ≠ [])
    (hf : ∀ c ∈ f, c ≠ '!' ∧ c ≠ '|')
    (hat : ∀ c ∈ attrs, c ≠ '!')
    (hsuf : hasDotAlnumSuffix f = true) :
    tryImg am ('!' :: (f ++ '|' :: (attrs ++ ['!'])))
      = some (imgRepl am f (('!' :: f) ++ '|' :: (attrs ++ ['!'])), []) := by
  have hspan : spanP (fun c => decide (c ≠ '!' ∧ c ≠ '|'))
      (f ++ '|' :: (attrs ++ ['!'])) = (f, '|' :: (attrs ++ ['!'])) := by
    apply spanP_append
    · intro x hx
      simp [(hf x hx).1, (hf x hx).2]
    · intro c hc
      simp only [List.head?] at hc
      cases hc
      simp
  have hspan2 : spanP (fun c => decide (c ≠ '!')) (attrs ++ ['!'])
      = (attrs, ['!']) := by
    apply spanP_append
    · intro x hx
      simp [hat x hx]
    · intro c hc
      simp only [List.head?] at hc
      cases hc
      simp
  simp only [tryImg]
  rw [hspan]
  simp only [tryImgAttrs]
  rw [hspan2]
  simp [hf0, hsuf]

/-- C7: an image reference whose filename is not a key of AttachmentMap
is left byte-for-byte unchanged (with and without attributes); a mapped
filename (again with and without attributes) renders as a Markdown
image exactly when IsImageFile accepts it, i.e. when its
case-insensitive extension is in the fixed image-extension set, and
otherwise as a plain Markdown link with the stored filename
path-escaped into the /attachments/ URL; the extension of base-dot-ext
filenames is the dot and the alphanumeric tail. -/
theorem c7_image_reference_handling (am : SMap) (b e attrs : Str)
    (hb0 : b ≠ []) (hb : ∀ c ∈ b, c ≠ '!' ∧ c ≠ '|')
    (he0 : e ≠ []) (he : ∀ c ∈ e, Char.isAlphanum c = true)
    (hat : ∀ c ∈ attrs, c ≠ '!') :
    (List.lookup (b ++ '.' :: e) am = none →
      replaceImageReferences (str "!" ++ (b ++ '.' :: e) ++ str "!") am
          = str "!" ++ (b ++ '.' :: e) ++ str "!" ∧
      replaceImageReferences
          (str "!" ++ (b ++ '.' :: e) ++ str "|" ++ attrs ++ str "!") am
        = str "!" ++ (b ++ '.' :: e) ++ str "|" ++ attrs ++ str "!") ∧
    (∀ saved, List.lookup (b ++ '.' :: e) am = some saved →
      replaceImageReferences (str "!" ++ (b ++ '.' :: e) ++ str "!") am
          = (if IsImageFile (b ++ '.' :: e) then
            str "![" ++ (b ++ '.' :: e) ++ str "](/attachments/"
              ++ pathEscape saved ++ str ")"
          else
            str "[" ++ (b ++ '.' :: e) ++ str "](/attachments/"
              ++ pathEscape saved ++ str ")") ∧
      replaceImageReferences
          (str "!" ++ (b ++ '.' :: e) ++ str "|" ++ attrs ++ str "!") am
        = (if IsImageFile (b ++ '.' :: e) then
            str "![" ++ (b ++ '.' :: e) ++ str "](/attachments/"
              ++ pathEscape saved ++ str ")"
          else
            str "[" ++ (b ++ '.' :: e) ++ str "](/attachments/"
              ++ pathEscape saved ++ str ")")) ∧
    extOf (b ++ '.' :: e) = '.' :: e ∧
    IsImageFile (b ++ '.' :: e)
      = imageExts.contains (('.' :: e).map Char.toLower) := by
  have hf : ∀ c ∈ b ++ '.' :: e, c ≠ '!' ∧ c ≠ '|' := by
    intro c hc
    rcases List.mem_append.mp hc with h1 | h1
    · exact hb c h1
    · rcases List.mem_cons.mp h1 with h2 | h2
      · subst h2; exact ⟨by decide, by decide⟩
      · have h3 := alnum_ne_special c (he c h2)
        exact ⟨h3.1, h3.2.1⟩
  have hf0 : b ++ '.' :: e ≠ [] := by
    cases b <;> simp
  have hsuf := hasDotAlnumSuffix_fname b e hb0 he0 he
  have htext1 : str "!" ++ (b ++ '.' :: e) ++ str "!"
      = '!' :: ((b ++ '.' :: e) ++ ['!']) := by
    rw [show str "!" = ['!'] from rfl]
    simp
  have htext2 : str "!" ++ (b ++ '.' :: e) ++ str "|" ++ attrs ++ str "!"
      = '!' :: ((b ++ '.' :: e) ++ '|' :: (attrs ++ ['!'])) := by
    rw [show str "!" = ['!'] from rfl, show str "|" = ['|'] from rfl]
    simp
  have h1 := tryImg_plain am (b ++ '.' :: e) hf0 hf hsuf
  have h2 := tryImg_attrs am (b ++ '.' :: e) attrs hf0 hf hat hsuf
  have hrepl1 : replaceImageReferences (str "!" ++ (b ++ '.' :: e) ++ str "!") am
      = imgRepl am (b ++ '.' :: e) (('!' :: (b ++ '.' :: e)) ++ ['!']) := by
    rw [replaceImageReferences, htext1]
    exact scanRepl_single _ _ _ _ h1 (by simp) (by simp)
  have hrepl2 : replaceImageReferences
      (str "!" ++ (b ++ '.' :: e) ++ str "|" ++ attrs ++ str "!") am
      = imgRepl am (b ++ '.' :: e)
          (('!' :: (b ++ '.' :: e)) ++ '|' :: (attrs ++ ['!'])) := by
    rw [replaceImageReferences, htext2]
    exact scanRepl_single _ _ _ _ h2 (by simp) (by simp)
  refine ⟨?_, ?_, extOf_fname b e he0 he, ?_⟩
  · intro hnone
    constructor
    · rw [hrepl1, imgRepl, hnone, htext1]
      rfl
    · rw [hrepl2, imgRepl, hnone, htext2]
      rfl
  · intro saved hsome
    constructor
    · rw [hrepl1, imgRepl, hsome]
    · rw [hrepl2, imgRepl, hsome]
  · rw [IsImageFile, extOf_fname b e he0 he]

/-- Witness for c7_image_reference_handling: the spec scenario of a
missing key (output unchanged) and a mapped png (image form). -/
theorem c7_image_reference_handling_witness :
    replaceImageReferences (str "!missing.png!") [] = str "!missing.png!" ∧
    replaceImageReferences (str "!shot.png!") [(str "shot.png", str "K1_shot.png")]
      = str "![shot.png](/attachments/K1_shot.png)" ∧
    replaceImageReferences (str "!shot.png|width=300!")
        [(str "shot.png", str "K1_shot.png")]
      = str "![shot.png](/attachments/K1_shot.png)" := by
  refine ⟨?_, ?_, ?_⟩
  · have h := (c7_image_reference_handling [] (str "missing") (str "png") []
      (by decide) (by decide) (by decide) (by decide) (by decide)).1 (by decide)
    exact h.1
  · have h := ((c7_image_reference_handling [(str "shot.png", str "K1_shot.png")]
      (str "shot") (str "png") []
      (by decide) (by decide) (by decide) (by decide) (by decide)).2.1
      (str "K1_shot.png") (by decide)).1
    rw [show str "!shot.png!"
        = str "!" ++ (str "shot" ++ '.' :: str "png") ++ str "!" from rfl]
    rw [h]
    decide
  · have h := ((c7_image_reference_handling [(str "shot.png", str "K1_shot.png")]
      (str "shot") (str "png") (str "width=300")
      (by decide) (by decide) (by decide) (by decide) (by decide)).2.1
      (str "K1_shot.png") (by decide)).2
    rw [show str "!shot.png|width=300!"
        = str "!" ++ (str "shot" ++ '.' :: str "png") ++ str "|"
          ++ str "width=300" ++ str "!" from rfl]
    rw [h]
    decide

/-! ## Iterative inline decoration rewriting (bold / strikethrough) -/

/-- Try to read one candidate at a delimiter position: the content is
the maximal run of characters allowed inside the candidate (the class
never contains the delimiter), and must be followed by the closing
delimiter.  The regexp content class is non-greedy but cannot contain
the delimiter, so the minimal extension reaching a closing delimiter is
exactly this span. -/
def tryInline (delim : Char) (ok : Char → Bool) (r : Str) :
    Option (Str × Str) :=
  let sp := spanP ok r
  match sp.2 with
  | d :: r2 => if d = delim ∧ sp.1 ≠ [] then some (sp.1, r2) else none
  | [] => none

/-- The non-overlapping left-to-right matches of the pattern delimiter,
content, delimiter over a line, each returned as an absolute
decomposition (prefix, content, suffix); mirrors
FindAllStringSubmatchIndex.  pre is the already-scanned text; fuel at
least the length of the remaining text suffices, each step consumes at
least one character. -/
def scanInline (delim : Char) (ok : Char → Bool) :
    Nat → Str → Str → List (Str × Str × Str)
  | 0, _, _ => []
  | _ + 1, _, [] => []
  | f + 1, pre, c :: r =>
    if c = delim then
      match tryInline delim ok r with
      | some (content, r2) =>
        (pre, content, r2) ::
          scanInline delim ok f (pre ++ delim :: content ++ [delim]) r2
      | none => scanInline delim ok f (pre ++ [c]) r
    else scanInline delim ok f (pre ++ [c]) r

/-- All matches of one line. -/
def scanLine (delim : Char) (ok : Char → Bool) (s : Str) :
    List (Str × Str × Str) :=
  scanInline delim ok s.length [] s

/-- One pass of the Go loop: compute all matches, walk them from the
back, rewrite the first acceptable one; none acceptable means no
change. -/
def stepInline (delim : Char) (ok : Char → Bool)
    (accept : Str → Str → Str → Bool) (render : Str → Str) (s : Str) :
    Option Str :=
  match (scanLine delim ok s).reverse.find?
      (fun e => accept e.1 e.2.1 e.2.2) with
  | some (pre, content, post) => some (pre ++ render content ++ post)
  | none => none

/-- The outer repeat-until-no-change loop of the Go converters; the Go
loop is unbounded, and fuel length + 2 always reaches the fixed point
(proved below for the bold instance, where each accepted rewrite turns
two singleton asterisk runs into doubled runs). -/
def loopInline (delim : Char) (ok : Char → Bool)
    (accept : Str → Str → Str → Bool) (render : Str → Str) :
    Nat → Str → Str
  | 0, s => s
  | f + 1, s =>
    match stepInline delim ok accept render s with
    | some t => loopInline delim ok accept render f t
    | none => s

/-! ## Bold conversion (convertBoldMarkup) -/

/-- Content class of the bold pattern: anything but asterisk and
newline. -/
def boldOk (c : Char) : Bool := decide (c ≠ '*' ∧ c ≠ '\n')

/-- Acceptance check of convertBoldMarkup: skip the candidate when the
character before the opening asterisk or after the closing asterisk is
another asterisk (already part of a doubled sequence). -/
def boldAccept (pre content post : Str) : Bool :=
  decide (pre.getLast? ≠ some '*') && decide (post.head? ≠ some '*')

/-- Replacement of one accepted bold candidate. -/
def boldRender (content : Str) : Str := str "**" ++ content ++ str "**"

/-- One line of convertBoldMarkup. -/
def boldLine (s : Str) : Str :=
  loopInline '*' boldOk boldAccept boldRender (s.length + 2) s

/-- convertBoldMarkup from the source, line by line. -/
def convertBoldMarkup (text : Str) : Str :=
  joinNl ((splitNl text).map boldLine)

/-! ## Strikethrough conversion (convertStrikethroughMarkup) -/

/-- Content class of the strikethrough pattern: anything but dash,
space and newline. -/
def strikeOk (c : Char) : Bool := decide (c ≠ '-' ∧ c ≠ ' ' ∧ c ≠ '\n')

/-- unicode.IsSpace, the class used by strings.TrimSpace. -/
def isGoUnicodeSpace (c : Char) : Bool :=
  c = ' ' || c = '\t' || c = '\n' || c = '\x0b' || c = '\x0c' || c = '\r' ||
  c = '\x85' || c = '\xa0' || c = ' ' ||
  (decide (' ' ≤ c) && decide (c ≤ ' ')) ||
  c = ' ' || c = ' ' || c = ' ' || c = ' ' || c = '　'

/-- Boundary characters that block a strikethrough candidate: ASCII
alphanumerics and dash, slash, colon. -/
def boundaryBad (c : Char) : Bool :=
  c.isDigit || c.isLower || c.isUpper || c = '-' || c = '/' || c = ':'

/-- True when the two characters just before the candidate are both
tildes (the byte checks at indices start minus 2 and start minus 1,
which require at least two characters of prefix). -/
def twoTildesBefore (pre : Str) : Bool :=
  match pre.reverse with
  | a :: b :: _ => decide (a = '~') && decide (b = '~')
  | _ => false

/-- True when the candidate is followed by two tildes that are not at
the very end of the line (the byte checks at the end index and end plus
1, guarded by end plus 2 being below the length). -/
def twoTildesAfter (post : Str) : Bool :=
  match post with
  | a :: b :: _ :: _ => decide (a = '~') && decide (b = '~')
  | _ => false

/-- The shouldSkip computation of convertStrikethroughMarkup, in source
order: whitespace-only content; line start with content beginning with a
space; bad previous rune; bad next rune; the two characters before the
candidate are two tildes; the candidate is followed by two tildes with
at least one more character after them. -/
def strikeSkip (pre content post : Str) : Bool :=
  content.all isGoUnicodeSpace ||
  (decide (pre = []) && decide (content.head? = some ' ')) ||
  (match pre.getLast? with
   | some c => boundaryBad c
   | none => false) ||
  (match post.head? with
   | some c => boundaryBad c
   | none => false) ||
  twoTildesBefore pre ||
  twoTildesAfter post

/-- A strikethrough candidate is rewritten when it is not skipped. -/
def strikeAccept (pre content post : Str) : Bool :=
  !(strikeSkip pre content post)

/-- Replacement of one accepted strikethrough candidate. -/
def strikeRender (content : Str) : Str := str "~~" ++ content ++ str "~~"

/-- One line of convertStrikethroughMarkup. -/
def strikeLine (s : Str) : Str :=
  loopInline '-' strikeOk strikeAccept strikeRender (s.length + 2) s

/-- convertStrikethroughMarkup from the source, line by line. -/
def convertStrikethroughMarkup (text : Str) : Str :=
  joinNl ((splitNl text).map strikeLine)

/-- The rejection rules of the strikethrough converter, stated from the
claim's words over a candidate decomposition (prefix, content, suffix)
of a line: whitespace-only content; candidate at line start with content
beginning with a space; bad boundary character (ASCII alphanumeric or
dash, slash, colon) directly before or after; immediately preceded by
two tildes; immediately followed by two tildes that are not at the very
end of the line. -/
def StrikeRejectSpec (pre content post : Str) : Prop :=
  (∀ c ∈ content, isGoUnicodeSpace c = true) ∨
  (pre = [] ∧ content.head? = some ' ') ∨
  (∃ c, pre.getLast? = some c ∧
    (c.isDigit = true ∨ c.isLower = true ∨ c.isUpper = true ∨
      c = '-' ∨ c = '/' ∨ c = ':')) ∨
  (∃ c, post.head? = some c ∧
    (c.isDigit = true ∨ c.isLower = true ∨ c.isUpper = true ∨
      c = '-' ∨ c = '/' ∨ c = ':')) ∨
  (∃ p, pre = p ++ ['~', '~']) ∨
  (∃ q, post = '~' :: '~' :: q ∧ q ≠ [])

theorem boundaryBad_iff (c : Char) :
    boundaryBad c = true ↔
      (c.isDigit = true ∨ c.isLower = true ∨ c.isUpper = true ∨
        c = '-' ∨ c = '/' ∨ c = ':') := by
  simp [boundaryBad, Bool.or_eq_true, decide_eq_true_eq, or_assoc]

theorem prevMatch_iff (pre : Str) :
    ((match pre.getLast? with
      | some c => boundaryBad c
      | none => false) = true) ↔
      (∃ c, pre.getLast? = some c ∧
        (c.isDigit = true ∨ c.isLower = true ∨ c.isUpper = true ∨
          c = '-' ∨ c = '/' ∨ c = ':')) := by
  cases hl : pre.getLast? with
  | none => simp
  | some c => simp [boundaryBad_iff]

theorem nextMatch_iff (post : Str) :
    ((match post.head? with
      | some c => boundaryBad c
      | none => false) = true) ↔
      (∃ c, post.head? = some c ∧
        (c.isDigit = true ∨ c.isLower = true ∨ c.isUpper = true ∨
          c = '-' ∨ c = '/' ∨ c = ':')) := by
  cases hl : post.head? with
  | none => simp
  | some c => simp [boundaryBad_iff]

theorem tildePre_iff (pre : Str) :
    twoTildesBefore pre = true ↔ (∃ p, pre = p ++ ['~', '~']) := by
  rw [show pre = pre.reverse.reverse from (List.reverse_reverse pre).symm]
  generalize pre.reverse = pr
  cases pr with
  | nil => simp [twoTildesBefore]
  | cons a t =>
    cases t with
    | nil =>
      simp only [twoTildesBefore, List.reverse_reverse]
      simp only [List.reverse_cons, List.reverse_nil, List.nil_append]
      constructor
      · intro h
        exact absurd h (by simp)
      · rintro ⟨p, hp⟩
        have hl := congrArg List.length hp
        simp at hl
    | cons b t2 =>
      simp only [twoTildesBefore, List.reverse_reverse, Bool.and_eq_true,
        decide_eq_true_eq]
      constructor
      · rintro ⟨rfl, rfl⟩
        exact ⟨t2.reverse, by simp⟩
      · rintro ⟨p, hp⟩
        have h2 := congrArg List.reverse hp
        simp only [List.reverse_reverse, List.reverse_append] at h2
        rw [show (['~', '~'] : Str).reverse = ['~', '~'] from rfl] at h2
        injection h2 with h3 h4
        injection h4 with h5 h6
        exact ⟨h3, h5⟩

theorem tildePost_iff (post : Str) :
    twoTildesAfter post = true ↔
      (∃ q, post = '~' :: '~' :: q ∧ q ≠ []) := by
  cases post with
  | nil => simp [twoTildesAfter]
  | cons a t =>
    cases t with
    | nil => simp [twoTildesAfter]
    | cons b t2 =>
      cases t2 with
      | nil => simp [twoTildesAfter]
      | cons x t3 =>
        simp only [twoTildesAfter, Bool.and_eq_true, decide_eq_true_eq]
        constructor
        · rintro ⟨rfl, rfl⟩
          exact ⟨x :: t3, rfl, by simp⟩
        · rintro ⟨q, he, hq⟩
          injection he with h1 h2
          injection h2 with h3 h4
          exact ⟨h1, h3⟩

theorem strikeSkip_iff (pre content post : Str) :
    strikeSkip pre content post = true ↔
      StrikeRejectSpec pre content post := by
  rw [strikeSkip, StrikeRejectSpec]
  simp only [Bool.or_eq_true, Bool.and_eq_true, decide_eq_true_eq,
    List.all_eq_true, prevMatch_iff, nextMatch_iff, tildePre_iff,
    tildePost_iff]
  simp only [or_assoc]

/-- C2 amended: the iterative strikethrough pass rewrites only
candidates that every rejection rule accepts, where the rules are:
whitespace-only content; candidate at line start whose content begins
with a space; boundary character (immediately before the opening dash
or after the closing dash) that is ASCII alphanumeric or one of the
THREE characters dash, slash, colon (the code does not check the
semicolon); candidate immediately preceded by two tildes, or followed
by two tildes that are not at the end of the line (adjacency, not
membership in a tilde span).  Date-like substrings and URL path
segments are left unchanged. -/
theorem c2_strikethrough_rules :
    (∀ pre content post : Str,
      strikeSkip pre content post = true ↔
        StrikeRejectSpec pre content post) ∧
    (∀ s : Str, ∀ e : Str × Str × Str,
      (scanLine '-' strikeOk s).reverse.find?
          (fun x => strikeAccept x.1 x.2.1 x.2.2) = some e →
      ¬ StrikeRejectSpec e.1 e.2.1 e.2.2) ∧
    convertStrikethroughMarkup (str "2025-01-14") = str "2025-01-14" ∧
    convertStrikethroughMarkup (str "https://example.com/path-to-page")
      = str "https://example.com/path-to-page" := by
  refine ⟨strikeSkip_iff, ?_, by decide, by decide⟩
  intro s e hf
  have h := List.find?_some hf
  simp only [strikeAccept, Bool.not_eq_true'] at h
  intro hr
  rw [← strikeSkip_iff] at hr
  rw [h] at hr
  exact Bool.false_ne_true hr

/-- Witness for c2_strikethrough_rules: the candidate selected on the
semicolon line satisfies no rejection rule. -/
theorem c2_strikethrough_rules_witness :
    ¬ StrikeRejectSpec [';'] (str "x") [] :=
  c2_strikethrough_rules.2.1 (str ";-x-") ([';'], str "x", []) (by decide)

/-- C2 fails on the code as stated: the claim's boundary set includes
the semicolon, but the code checks only dash, slash and colon, so a
candidate preceded by a semicolon is rewritten. -/
theorem c2_counterexample :
    convertStrikethroughMarkup (str ";-x-") = str ";~~x~~" ∧
    convertStrikethroughMarkup (str ";-x-") ≠ str ";-x-" :=
  ⟨by decide, by decide⟩

/-! ## Bold idempotence (C4) -/


theorem spanP_fst_all (p : Char → Bool) (s : Str) :
    ∀ c ∈ (spanP p s).1, p c = true := by
  induction s with
  | nil => simp [spanP]
  | cons c r ih =>
    simp only [spanP]
    by_cases h : p c
    · simp only [h, if_true]
      intro x hx
      rcases List.mem_cons.mp hx with h1 | h1
      · subst h1; exact h
      · exact ih x h1
    · simp [h]

theorem tryInline_some (delim : Char) (ok : Char → Bool) (r content r2 : Str)
    (h : tryInline delim ok r = some (content, r2)) :
    r = content ++ delim :: r2 ∧ content ≠ [] ∧
      ∀ c ∈ content, ok c = true := by
  simp only [tryInline] at h
  cases hsp2 : (spanP ok r).2 with
  | nil => rw [hsp2] at h; exact absurd h (by simp)
  | cons d rr =>
    rw [hsp2] at h
    dsimp only at h
    by_cases hd : d = delim ∧ (spanP ok r).1 ≠ []
    · rw [if_pos hd] at h
      have hp : (spanP ok r).1 = content ∧ rr = r2 := by
        have := Option.some.inj h
        exact ⟨congrArg Prod.fst this, congrArg Prod.snd this⟩
      refine ⟨?_, ?_, ?_⟩
      · rw [← hp.1, ← hp.2, ← hd.1, ← hsp2]
        exact (spanP_decomp ok r).symm
      · rw [← hp.1]; exact hd.2
      · rw [← hp.1]; exact spanP_fst_all ok r
    · rw [if_neg hd] at h; exact absurd h (by simp)

theorem scanInline_mem (delim : Char) (ok : Char → Bool) :
    ∀ (f : Nat) (pre rest : Str) (e : Str × Str × Str),
      e ∈ scanInline delim ok f pre rest →
      pre ++ rest = e.1 ++ delim :: (e.2.1 ++ delim :: e.2.2) ∧
        e.2.1 ≠ [] ∧ ∀ c ∈ e.2.1, ok c = true := by
  intro f
  induction f with
  | zero => intro pre rest e he; simp [scanInline] at he
  | succ f ih =>
    intro pre rest e he
    cases rest with
    | nil => simp [scanInline] at he
    | cons c r =>
      simp only [scanInline] at he
      by_cases hc : c = delim
      · rw [if_pos hc] at he
        cases ht : tryInline delim ok r with
        | none =>
          rw [ht] at he
          have h2 := ih (pre ++ [c]) r e he
          rwa [List.append_assoc, List.singleton_append] at h2
        | some val =>
          obtain ⟨content, r2⟩ := val
          rw [ht] at he
          rcases List.mem_cons.mp he with h1 | h1
          · subst h1
            obtain ⟨hr, hc0, hok⟩ := tryInline_some delim ok r content r2 ht
            refine ⟨?_, hc0, hok⟩
            rw [hr, hc]
          · have h2 := ih (pre ++ delim :: content ++ [delim]) r2 e h1
            obtain ⟨hr, hc0, hok⟩ := tryInline_some delim ok r content r2 ht
            refine ⟨?_, h2.2⟩
            rw [← h2.1, hr, hc]
            simp [List.append_assoc]
      · rw [if_neg hc] at he
        have h2 := ih (pre ++ [c]) r e he
        rwa [List.append_assoc, List.singleton_append] at h2

theorem stepInline_some (delim : Char) (ok : Char → Bool)
    (accept : Str → Str → Str → Bool) (render : Str → Str) (s t : Str)
    (h : stepInline delim ok accept render s = some t) :
    ∃ pre content post : Str,
      s = pre ++ delim :: (content ++ delim :: post) ∧
      t = pre ++ render content ++ post ∧ content ≠ [] ∧
      (∀ c ∈ content, ok c = true) ∧ accept pre content post = true := by
  rw [stepInline] at h
  cases hf : ((scanLine delim ok s).reverse.find?
      fun e => accept e.1 e.2.1 e.2.2) with
  | none => rw [hf] at h; exact absurd h (by simp)
  | some e =>
    rw [hf] at h
    obtain ⟨pre, content, post⟩ := e
    have hmem := List.mem_reverse.mp (List.mem_of_find?_eq_some hf)
    have hdec := scanInline_mem delim ok s.length [] s _ hmem
    have hacc := List.find?_some hf
    refine ⟨pre, content, post, ?_, ?_, hdec.2.1, hdec.2.2, hacc⟩
    · simpa using hdec.1
    · exact (Option.some.inj h).symm

/-- Helper for counting the maximal asterisk runs of length exactly one:
n is the length of the asterisk run currently being read. -/
def sAux : Nat → Str → Nat
  | n, [] => if n = 1 then 1 else 0
  | n, c :: r =>
    if c = '*' then sAux (n + 1) r
    else (if n = 1 then 1 else 0) + sAux 0 r

/-- Number of maximal asterisk runs of length exactly one.  Each
accepted bold rewrite turns the two singleton runs flanking the
candidate into runs of length two, so this measure strictly decreases
and bounds the iteration count of the Go loop. -/
def countSingle (s : Str) : Nat := sAux 0 s

theorem sAux_cons_star (n : Nat) (r : Str) :
    sAux n ('*' :: r) = sAux (n + 1) r := by
  simp [sAux]

theorem sAux_cons_other (n : Nat) (c : Char) (r : Str) (h : ¬(c = '*')) :
    sAux n (c :: r) = (if n = 1 then 1 else 0) + sAux 0 r := by
  simp [sAux, h]

theorem sAux_append_safe (p : Str) (hp0 : p ≠ [])
    (hp : p.getLast? ≠ some '*') :
    ∀ (n : Nat) (xs : Str), sAux n (p ++ xs) = sAux n p + sAux 0 xs := by
  induction p with
  | nil => exact absurd rfl hp0
  | cons a p ih =>
    intro n xs
    cases p with
    | nil =>
      have ha : ¬(a = '*') := by
        intro he
        rw [he] at hp
        exact hp rfl
      rw [List.singleton_append, sAux_cons_other n a xs ha,
        sAux_cons_other n a [] ha]
      simp [sAux]
    | cons b p2 =>
      have hp2 : (b :: p2).getLast? ≠ some '*' := by
        rwa [List.getLast?_cons_cons] at hp
      by_cases ha : a = '*'
      · subst ha
        rw [List.cons_append, sAux_cons_star, sAux_cons_star]
        exact ih (by simp) hp2 (n + 1) xs
      · rw [List.cons_append, sAux_cons_other n a _ ha,
          sAux_cons_other n a _ ha, ih (by simp) hp2 0 xs]
        omega

theorem sAux_starfree (cs : Str) (h : ∀ c ∈ cs, ¬(c = '*')) :
    ∀ xs : Str, sAux 0 (cs ++ xs) = sAux 0 xs := by
  induction cs with
  | nil => intro xs; rfl
  | cons a cs ih =>
    intro xs
    rw [List.cons_append, sAux_cons_other 0 a _ (h a (by simp)),
      ih (fun c hc => h c (List.mem_cons_of_mem a hc)) xs]
    simp

theorem sAux_one_two (q : Str) (hq : q.head? ≠ some '*') :
    sAux 1 q = 1 + sAux 0 q ∧ sAux 2 q = sAux 0 q := by
  cases q with
  | nil => simp [sAux]
  | cons a q2 =>
    have ha : ¬(a = '*') := by
      intro he
      rw [he] at hq
      exact hq rfl
    simp [sAux, ha]

theorem countSingle_mid (c post : Str) (hc0 : c ≠ [])
    (hc : ∀ x ∈ c, ¬(x = '*')) (hpost : post.head? ≠ some '*') :
    sAux 0 ('*' :: (c ++ '*' :: post)) = 2 + sAux 0 post ∧
    sAux 0 ('*' :: '*' :: (c ++ '*' :: '*' :: post)) = sAux 0 post := by
  cases c with
  | nil => exact absurd rfl hc0
  | cons c0 c2 =>
    have hc0n : ¬(c0 = '*') := hc c0 (by simp)
    have hc2 : ∀ x ∈ c2, ¬(x = '*') :=
      fun x hx => hc x (List.mem_cons_of_mem c0 hx)
    constructor
    · show sAux 0 ('*' :: (c0 :: c2 ++ '*' :: post)) = 2 + sAux 0 post
      rw [sAux_cons_star, List.cons_append, sAux_cons_other 1 c0 _ hc0n,
        sAux_starfree c2 hc2 ('*' :: post), sAux_cons_star,
        (sAux_one_two post hpost).1]
      rw [if_pos rfl]
      omega
    · show sAux 0 ('*' :: '*' :: (c0 :: c2 ++ '*' :: '*' :: post))
          = sAux 0 post
      rw [sAux_cons_star, sAux_cons_star, List.cons_append,
        sAux_cons_other 2 c0 _ hc0n,
        sAux_starfree c2 hc2 ('*' :: '*' :: post), sAux_cons_star,
        sAux_cons_star, (sAux_one_two post hpost).2]
      simp

theorem boldStep_phi (s t : Str)
    (h : stepInline '*' boldOk boldAccept boldRender s = some t) :
    countSingle t + 2 = countSingle s := by
  obtain ⟨pre, c, post, hs, ht, hc0, hok, hacc⟩ :=
    stepInline_some '*' boldOk boldAccept boldRender s t h
  have hc : ∀ x ∈ c, ¬(x = '*') := by
    intro x hx he
    have := hok x hx
    rw [he] at this
    simp [boldOk] at this
  simp only [boldAccept, Bool.and_eq_true, decide_eq_true_eq] at hacc
  have hmid := countSingle_mid c post hc0 hc hacc.2
  have htE : t = pre ++ ('*' :: '*' :: (c ++ '*' :: '*' :: post)) := by
    rw [ht, boldRender]
    rw [show str "**" = ['*', '*'] from rfl]
    simp [List.append_assoc]
  rw [countSingle, countSingle, hs, htE]
  cases hpre : pre with
  | nil =>
    simp only [List.nil_append]
    rw [show sAux 0 ('*' :: (c ++ '*' :: post)) = 2 + sAux 0 post from hmid.1]
    rw [show sAux 0 ('*' :: '*' :: (c ++ '*' :: '*' :: post))
        = sAux 0 post from hmid.2]
    omega
  | cons a p2 =>
    by_cases hlast : pre.getLast? = some '*'
    · exact absurd hlast (by simpa using hacc.1)
    · rw [← hpre]
      rw [sAux_append_safe pre (by rw [hpre]; simp) hlast 0]
      rw [sAux_append_safe pre (by rw [hpre]; simp) hlast 0]
      rw [hmid.1, hmid.2]
      omega

theorem sAux_le (n : Nat) (l : Str) : sAux n l ≤ l.length + 1 := by
  induction l generalizing n with
  | nil =>
    show (if n = 1 then 1 else 0) ≤ 0 + 1
    split <;> omega
  | cons c r ih =>
    by_cases hc : c = '*'
    · subst hc
      rw [sAux_cons_star]
      have := ih (n + 1)
      simp only [List.length_cons]
      omega
    · rw [sAux_cons_other n c r hc]
      have := ih 0
      simp only [List.length_cons]
      split <;> omega

theorem loopInline_none (delim : Char) (ok : Char → Bool)
    (accept : Str → Str → Str → Bool) (render : Str → Str) (s : Str)
    (h : stepInline delim ok accept render s = none) :
    ∀ f, loopInline delim ok accept render f s = s := by
  intro f
  cases f with
  | zero => rfl
  | succ f => simp [loopInline, h]

theorem boldLoop_fix : ∀ (f : Nat) (s : Str), countSingle s < f →
    stepInline '*' boldOk boldAccept boldRender
      (loopInline '*' boldOk boldAccept boldRender f s) = none := by
  intro f
  induction f with
  | zero => intro s h; omega
  | succ f ih =>
    intro s h
    cases hstep : stepInline '*' boldOk boldAccept boldRender s with
    | none =>
      rw [show loopInline '*' boldOk boldAccept boldRender (f + 1) s = s by
        simp [loopInline, hstep]]
      exact hstep
    | some t =>
      have hphi := boldStep_phi s t hstep
      simp only [loopInline, hstep]
      exact ih t (by omega)

theorem boldLine_fix (s : Str) :
    stepInline '*' boldOk boldAccept boldRender (boldLine s) = none := by
  apply boldLoop_fix
  have := sAux_le 0 s
  rw [countSingle]
  omega

theorem boldLine_idem (s : Str) : boldLine (boldLine s) = boldLine s := by
  rw [boldLine]
  exact loopInline_none _ _ _ _ _ (boldLine_fix s) _

theorem boldStep_no_nl (s t : Str) (hs : '\n' ∉ s)
    (h : stepInline '*' boldOk boldAccept boldRender s = some t) :
    '\n' ∉ t := by
  obtain ⟨pre, c, post, hsE, htE, _, _, _⟩ :=
    stepInline_some '*' boldOk boldAccept boldRender s t h
  intro hm
  rw [htE, boldRender, show str "**" = ['*', '*'] from rfl] at hm
  apply hs
  rw [hsE]
  simp only [List.mem_append, List.mem_cons, List.mem_singleton] at hm ⊢
  have hne : ¬(('\n' : Char) = '*') := by decide
  rcases hm with (h1 | h1) | h1
  · exact Or.inl h1
  · rcases h1 with ((h2 | h2 | h2) | h2) | (h2 | h2 | h2)
    · exact absurd h2 hne
    · exact absurd h2 hne
    · simp at h2
    · exact Or.inr (Or.inr (Or.inl h2))
    · exact absurd h2 hne
    · exact absurd h2 hne
    · simp at h2
  · exact Or.inr (Or.inr (Or.inr (Or.inr h1)))

theorem boldLoop_no_nl : ∀ (f : Nat) (s : Str), '\n' ∉ s →
    '\n' ∉ loopInline '*' boldOk boldAccept boldRender f s := by
  intro f
  induction f with
  | zero => intro s hs; exact hs
  | succ f ih =>
    intro s hs
    cases hstep : stepInline '*' boldOk boldAccept boldRender s with
    | none => simpa [loopInline, hstep] using hs
    | some t =>
      simp only [loopInline, hstep]
      exact ih t (boldStep_no_nl s t hs hstep)

theorem boldLine_no_nl (s : Str) (hs : '\n' ∉ s) : '\n' ∉ boldLine s :=
  boldLoop_no_nl (s.length + 2) s hs

theorem map_boldLine_idem (ls : List Str) :
    (ls.map boldLine).map boldLine = ls.map boldLine := by
  induction ls with
  | nil => rfl
  | cons l ls ih => simp [boldLine_idem, ih]

/-- C4: convertBoldMarkup is idempotent on every input, and a candidate
whose opening or closing delimiter is immediately adjacent to another
asterisk is never the one selected for rewriting (the selected candidate
always has a non-asterisk before its opening delimiter and after its
closing delimiter). -/
theorem c4_bold_idempotent :
    (∀ x : Str,
      convertBoldMarkup (convertBoldMarkup x) = convertBoldMarkup x) ∧
    (∀ (s : Str) (e : Str × Str × Str),
      (scanLine '*' boldOk s).reverse.find?
          (fun x => boldAccept x.1 x.2.1 x.2.2) = some e →
      e.1.getLast? ≠ some '*' ∧ e.2.2.head? ≠ some '*') := by
  constructor
  · intro x
    rw [convertBoldMarkup, convertBoldMarkup]
    have hpieces : ∀ l ∈ (splitNl x).map boldLine, '\n' ∉ l := by
      intro l hl
      obtain ⟨l0, hl0, rfl⟩ := List.mem_map.mp hl
      exact boldLine_no_nl l0 (not_mem_of_mem_splitCh '\n' x l0 hl0)
    have hnn : (splitNl x).map boldLine ≠ [] := by
      intro hcon
      exact splitCh_ne_nil '\n' x (by simpa using hcon)
    rw [show splitNl (joinNl ((splitNl x).map boldLine))
        = (splitNl x).map boldLine from splitCh_joinCh '\n' _ hnn hpieces]
    rw [map_boldLine_idem]
  · intro s e hf
    have h := List.find?_some hf
    simp only [boldAccept, Bool.and_eq_true, decide_eq_true_eq] at h
    exact h

/-- Witness for c4_bold_idempotent at concrete inputs. -/
theorem c4_bold_idempotent_witness :
    convertBoldMarkup (convertBoldMarkup (str "*a*b*"))
        = convertBoldMarkup (str "*a*b*") ∧
    (([] : Str).getLast? ≠ some '*' ∧ ([] : Str).head? ≠ some '*') := by
  constructor
  · exact c4_bold_idempotent.1 (str "*a*b*")
  · exact c4_bold_idempotent.2 (str "*a*") ([], str "a", []) (by decide)

/-! ## Table extraction and conversion (extractJIRATables /
convertJIRATableToMarkdown) -/

/-- strings.HasPrefix(line, one pipe). -/
def startsPipe (l : Str) : Bool := decide (l.head? = some '|')

/-- strings.HasPrefix(line, two pipes). -/
def startsPP (l : Str) : Bool :=
  startsPipe l && decide (l.tail.head? = some '|')

/-- strings.HasSuffix(line, one pipe). -/
def endsPipe (l : Str) : Bool := decide (l.getLast? = some '|')

/-- strings.HasSuffix(line, two pipes). -/
def endsPP (l : Str) : Bool :=
  endsPipe l && decide (l.dropLast.getLast? = some '|')

/-- A table header line: starts and ends with two pipes. -/
def isHeaderForm (l : Str) : Bool := startsPP l && endsPP l

/-- A table data line: starts with one pipe but not two. -/
def isDataStart (l : Str) : Bool := startsPipe l && !(startsPP l)

/-- Cell-continuation joining loop: while the joined line does not
satisfy done and lines remain, stop when the next line satisfies stop,
otherwise append it with its newline; returns the joined line and the
remaining lines. -/
def joinUntil (done stop : Str → Bool) (acc : Str) :
    List Str → Str × List Str
  | [] => (acc, [])
  | n :: r =>
    if done acc then (acc, n :: r)
    else if stop n then (acc, n :: r)
    else joinUntil done stop (acc ++ '\n' :: n) r

/-- Data-row collection loop of the headered branch of
extractJIRATables: a new header line, an empty line or any non-pipe line
ends the table; each data row is joined across continuation lines
(stopping only at header lines) and is kept only when the joined row
ends with a pipe. -/
def collectHGo : Nat → List Str → (List Str × List Str)
  | 0, ls => ([], ls)
  | _ + 1, [] => ([], [])
  | f + 1, l :: r =>
    if isHeaderForm l then ([], l :: r)
    else if isDataStart l then
      let j := joinUntil endsPipe isHeaderForm l r
      let rest := collectHGo f j.2
      (if endsPipe j.1 then j.1 :: rest.1 else rest.1, rest.2)
    else ([], l :: r)

/-- Row collection loop of the headerless branch: the join additionally
stops at any pipe-prefixed line and at empty lines. -/
def collectNGo : Nat → List Str → (List Str × List Str)
  | 0, ls => ([], ls)
  | _ + 1, [] => ([], [])
  | f + 1, l :: r =>
    if isDataStart l then
      let j := joinUntil endsPipe
        (fun n => isHeaderForm n || startsPipe n || decide (n = [])) l r
      let rest := collectNGo f j.2
      (if endsPipe j.1 then j.1 :: rest.1 else rest.1, rest.2)
    else ([], l :: r)

/-- Placeholder for table i. -/
def tableTok (i : Nat) : Str :=
  str "__TABLE_" ++ Nat.toDigits 10 i ++ str "__"

/-- Main loop of extractJIRATables; tabs counts the tables collected so
far (the placeholder is numbered len(tables) - 1 after appending). -/
def extractGo : Nat → Nat → List Str → (List Str × List Str)
  | 0, _, ls => (ls, [])
  | _ + 1, _, [] => ([], [])
  | f + 1, tabs, l :: r =>
    if isHeaderForm l then
      let cj := collectHGo r.length r
      let rest := extractGo f (tabs + 1) cj.2
      (tableTok tabs :: rest.1, joinNl (l :: cj.1) :: rest.2)
    else if isDataStart l then
      let cj := collectNGo (l :: r).length (l :: r)
      if cj.1 = [] then
        let rest := extractGo f tabs cj.2
        (rest.1, rest.2)
      else
        let rest := extractGo f (tabs + 1) cj.2
        (tableTok tabs :: rest.1, joinNl cj.1 :: rest.2)
    else
      let rest := extractGo f tabs r
      (l :: rest.1, rest.2)

/-- extractJIRATables from the source. -/
def extractJIRATables (text : Str) : Str × List Str :=
  let lines := splitNl text
  let r := extractGo lines.length 0 lines
  (joinNl r.1, r.2)

/-- strings.Trim(s, one pipe): drop all leading and trailing pipes. -/
def trimPipes (s : Str) : Str :=
  ((s.dropWhile (fun c => c = '|')).reverse.dropWhile
    (fun c => c = '|')).reverse

/-- strings.Split on the two-pipe separator (non-overlapping, left to
right). -/
def splitPP : Str → List Str
  | [] => [[]]
  | [c] => [[c]]
  | a :: b :: r =>
    if a = '|' ∧ b = '|' then [] :: splitPP r
    else consHead a (splitPP (b :: r))

/-- strings.ReplaceAll(cell, newline, break tag). -/
def brCell : Str → Str
  | [] => []
  | c :: r => if c = '\n' then str "<br>" ++ brCell r else c :: brCell r

/-- strings.Join with a string separator. -/
def joinSep (sep : Str) : List Str → Str
  | [] => []
  | [l] => l
  | l :: ls => l ++ sep ++ joinSep sep ls

/-- One rendered Markdown table row over already-prepared cells. -/
def mdRowOf (cells : List Str) : Str :=
  str "| " ++ joinSep (str " | ") cells ++ str " |"

/-- The dash separator row for n cells. -/
def sepRowOf (n : Nat) : Str :=
  str "| " ++ joinSep (str " | ") (List.replicate n (str "------")) ++ str " |"

/-- The synthesized blank header row for n cells. -/
def blankRowOf (n : Nat) : Str :=
  str "| " ++ joinSep (str " | ") (List.replicate n (str " ")) ++ str " |"

/-- Blank-header synthesis of convertJIRATableToMarkdown for headerless
tables: the first data row is joined across continuation lines and its
cell count sets the width of the blank header and its separator row. -/
def synthHeader (lines : List Str) : List Str :=
  match lines with
  | [] => []
  | l :: r =>
    if isDataStart l then
      let j := joinUntil endsPipe (fun _ => false) l r
      if endsPipe j.1 then
        let n := (splitCh '|' (trimPipes j.1)).length
        [blankRowOf n, sepRowOf n]
      else []
    else []

/-- Main loop of convertJIRATableToMarkdown: header lines are joined
until they end with two pipes and render a header row plus a separator
row; data lines are joined until they end with a pipe and render one
row; embedded newlines in cells become break tags; anything else is
skipped. -/
def convGo : Nat → List Str → List Str
  | 0, _ => []
  | _ + 1, [] => []
  | f + 1, l :: r =>
    if startsPP l then
      let j := joinUntil endsPP (fun _ => false) l r
      (if endsPP j.1 then
        [mdRowOf ((splitPP (trimPipes j.1)).map brCell),
         sepRowOf ((splitPP (trimPipes j.1)).map brCell).length]
       else []) ++ convGo f j.2
    else if startsPipe l then
      let j := joinUntil endsPipe (fun _ => false) l r
      (if endsPipe j.1 then
        [mdRowOf ((splitCh '|' (trimPipes j.1)).map brCell)]
       else []) ++ convGo f j.2
    else convGo f r

/-- convertJIRATableToMarkdown from the source. -/
def convertJIRATableToMarkdown (table : Str) : Str :=
  let lines := splitNl table
  let hasHeader :=
    match lines with
    | l :: _ => isHeaderForm l
    | [] => false
  let pre := if hasHeader = false ∧ lines ≠ [] then synthHeader lines else []
  joinNl (pre ++ convGo lines.length lines)

/-- Well-formed header cell: nonempty, no pipe, no newline. -/
def wfHeaderCell (c : Str) : Prop := c ≠ [] ∧ '|' ∉ c ∧ '\n' ∉ c

/-- Well-formed data cell: nonempty, no pipe, and any embedded newlines
are interior and not adjacent to each other. -/
def wfCell (c : Str) : Prop :=
  c ≠ [] ∧ '|' ∉ c ∧ c.head? ≠ some '\n' ∧ c.getLast? ≠ some '\n' ∧
    ¬ (['\n', '\n'] <:+: c)

/-- Well-formed data row: at least one well-formed cell. -/
def wfRow (r : List Str) : Prop := r ≠ [] ∧ ∀ c ∈ r, wfCell c

/-- Well-formed header: at least one well-formed header cell. -/
def wfHeader (h : List Str) : Prop := h ≠ [] ∧ ∀ c ∈ h, wfHeaderCell c

/-- The raw JIRA text of one data row. -/
def rowText (r : List Str) : Str := '|' :: (joinSep ['|'] r ++ ['|'])

/-- The raw JIRA text of a header line. -/
def headerText (h : List Str) : Str :=
  '|' :: '|' :: (joinSep ['|', '|'] h ++ ['|', '|'])

/-- The raw JIRA text of a headered table. -/
def tableText (h : List Str) (rows : List (List Str)) : Str :=
  joinNl (headerText h :: rows.map rowText)

/-- The raw JIRA text of a headerless table. -/
def headerlessText (rows : List (List Str)) : Str :=
  joinNl (rows.map rowText)

/-- Expected Markdown rendering of one data row. -/
def mdRow (r : List Str) : Str := mdRowOf (r.map brCell)

instance (c : Str) : Decidable (wfHeaderCell c) :=
  decidable_of_iff (c ≠ [] ∧ '|' ∉ c ∧ '\n' ∉ c) Iff.rfl

instance (c : Str) : Decidable (wfCell c) :=
  decidable_of_iff (c ≠ [] ∧ '|' ∉ c ∧ c.head? ≠ some '\n' ∧
    c.getLast? ≠ some '\n' ∧ ¬ (['\n', '\n'] <:+: c)) Iff.rfl

instance (r : List Str) : Decidable (wfRow r) :=
  decidable_of_iff (r ≠ [] ∧ ∀ c ∈ r, wfCell c) Iff.rfl

instance (h : List Str) : Decidable (wfHeader h) :=
  decidable_of_iff (h ≠ [] ∧ ∀ c ∈ h, wfHeaderCell c) Iff.rfl

theorem splitNl_pieces_ne_nil :
    ∀ (n : Nat) (c : Str), c.length ≤ n → c ≠ [] →
      c.head? ≠ some '\n' → c.getLast? ≠ some '\n' →
      ¬ (['\n', '\n'] <:+: c) → ∀ p ∈ splitNl c, p ≠ [] := by
  intro n
  induction n with
  | zero =>
    intro c hlen h0
    cases c with
    | nil => intro _ _ _ _ _; exact absurd rfl h0
    | cons a r => simp at hlen
  | succ n ih =>
    intro c hlen h0 hh hl hi p hp
    cases c with
    | nil => exact absurd rfl h0
    | cons x r =>
      have hx : ¬(x = '\n') := fun he => hh (by rw [he]; rfl)
      cases r with
      | nil =>
        simp only [splitNl, splitCh, if_neg hx, consHead] at hp
        rcases List.mem_cons.mp hp with h1 | h1
        · subst h1; simp
        · simp at h1
      | cons y r2 =>
        have hsp : splitNl (x :: y :: r2)
            = consHead x (splitNl (y :: r2)) := by
          simp only [splitNl, splitCh, if_neg hx]
        rw [hsp] at hp
        by_cases hy : y = '\n'
        · subst hy
          have hr2 : splitNl ('\n' :: r2) = [] :: splitNl r2 := by
            simp [splitNl, splitCh]
          rw [hr2] at hp
          simp only [consHead] at hp
          rcases List.mem_cons.mp hp with h1 | h1
          · subst h1; simp
          · have hr20 : r2 ≠ [] := by
              rintro rfl
              exact hl (by rfl)
            have hr2h : r2.head? ≠ some '\n' := by
              intro hcon
              apply hi
              cases r2 with
              | nil => exact absurd rfl hr20
              | cons z r3 =>
                simp only [List.head?] at hcon
                cases hcon
                exact ⟨[x], r3, by simp⟩
            have hr2l : r2.getLast? ≠ some '\n' := by
              intro hcon
              apply hl
              rw [show x :: '\n' :: r2 = [x, '\n'] ++ r2 from rfl,
                List.getLast?_append_of_ne_nil [x, '\n'] hr20]
              exact hcon
            have hr2i : ¬ (['\n', '\n'] <:+: r2) := by
              intro hcon
              exact hi (hcon.trans (by exact ⟨[x, '\n'], [], by simp⟩))
            exact ih r2 (by simp at hlen; omega) hr20 hr2h hr2l hr2i p h1
        · have hyr : (y :: r2) ≠ [] := by simp
          have hyh : (y :: r2).head? ≠ some '\n' := by
            intro hcon
            simp only [List.head?] at hcon
            cases hcon
            exact hy rfl
          have hyl : (y :: r2).getLast? ≠ some '\n' := by
            rwa [show (x :: y :: r2).getLast? = (y :: r2).getLast? from
              List.getLast?_cons_cons] at hl
          have hyi : ¬ (['\n', '\n'] <:+: (y :: r2)) := by
            intro hcon
            exact hi (hcon.trans ⟨[x], [], by simp⟩)
          have hall := ih (y :: r2) (by simp at hlen ⊢; omega) hyr hyh hyl hyi
          cases hq : splitNl (y :: r2) with
          | nil => exact absurd hq (splitCh_ne_nil '\n' _)
          | cons q qs =>
            rw [hq] at hp
            simp only [consHead] at hp
            rcases List.mem_cons.mp hp with h1 | h1
            · subst h1; simp
            · exact hall p (by rw [hq]; exact List.mem_cons_of_mem q h1)

theorem splitNl_append_of (a b : Str) (as0 : List Str) (alast : Str)
    (hb2 : List Str) (tb : List Str) (hbv : Str)
    (ha : splitNl a = as0 ++ [alast]) (hbs : splitNl b = hbv :: tb) :
    splitNl (a ++ b) = as0 ++ (alast ++ hbv) :: tb := by
  induction a generalizing as0 alast with
  | nil =>
    have : as0 ++ [alast] = [([] : Str)] := by
      rw [← ha]; rfl
    have h0 : as0 = [] ∧ alast = [] := by
      cases as0 with
      | nil => simpa using this.symm
      | cons u us =>
        have hlen := congrArg List.length this
        simp at hlen
    rw [h0.1, h0.2]
    simpa using hbs
  | cons x r ih =>
    by_cases hx : x = '\n'
    · subst hx
      have hsp : splitNl ('\n' :: r) = [] :: splitNl r := by
        simp [splitNl, splitCh]
      rw [hsp] at ha
      cases as0 with
      | nil =>
        have h2 := ha
        simp only [List.nil_append] at h2
        exact absurd (List.cons.inj h2).2 (splitCh_ne_nil '\n' r)
      | cons a0 as0t =>
        have ha2 : splitNl r = as0t ++ [alast] := by
          have := ha
          simp only [List.cons_append] at this
          exact (List.cons.inj this).2
        have ha0 : a0 = [] := by
          have := ha
          simp only [List.cons_append] at this
          exact ((List.cons.inj this).1).symm
        have hres : splitNl ('\n' :: (r ++ b)) = [] :: splitNl (r ++ b) := by
          simp [splitNl, splitCh]
        rw [List.cons_append, hres, ih as0t alast ha2, ha0]
        rfl
    · have hsp : splitNl (x :: r) = consHead x (splitNl r) := by
        simp only [splitNl, splitCh, if_neg hx]
      rw [hsp] at ha
      cases hq : splitNl r with
      | nil => exact absurd hq (splitCh_ne_nil '\n' r)
      | cons q qs =>
        rw [hq] at ha
        simp only [consHead] at ha
        have hres : splitNl (x :: (r ++ b))
            = consHead x (splitNl (r ++ b)) := by
          simp only [splitNl, splitCh, if_neg hx]
        cases as0 with
        | nil =>
          have hxq : x :: q = alast ∧ qs = [] := by
            have h1 := ha
            simp only [List.nil_append] at h1
            exact ⟨(List.cons.inj h1).1, (List.cons.inj h1).2⟩
          have hq2 : splitNl r = [] ++ [q] := by rw [hq, hxq.2]; rfl
          rw [List.cons_append, hres, ih [] q hq2]
          simp only [consHead, List.nil_append]
          rw [← hxq.1]
          rfl
        | cons a0 as0t =>
          have hxa : a0 = x :: q ∧ qs = as0t ++ [alast] := by
            have h1 := ha
            simp only [List.cons_append] at h1
            exact ⟨((List.cons.inj h1).1).symm, (List.cons.inj h1).2⟩
          have hq2 : splitNl r = q :: as0t ++ [alast] := by
            rw [hq, hxa.2]; rfl
          rw [List.cons_append, hres, ih (q :: as0t) alast hq2]
          simp only [consHead, List.cons_append, hxa.1]

theorem endsPipe_append (a b : Str) (hb : b ≠ []) :
    endsPipe (a ++ b) = endsPipe b := by
  simp [endsPipe, List.getLast?_append_of_ne_nil a hb]

theorem startsPipe_false_of_no_pipe (l : Str) (h : '|' ∉ l) :
    startsPipe l = false := by
  cases l with
  | nil => rfl
  | cons x r =>
    have hx : ¬(x = '|') := fun he => h (he ▸ List.mem_cons_self x r)
    simp [startsPipe, hx]

theorem endsPipe_false_of_no_pipe (l : Str) (h : '|' ∉ l) :
    endsPipe l = false := by
  cases hq : l.getLast? with
  | none => simp [endsPipe, hq]
  | some z =>
    have hz : ¬(z = '|') :=
      fun he => h (he ▸ List.mem_of_mem_getLast? hq)
    simp [endsPipe, hq, hz]

theorem cell_pieces (c : Str) (h : wfCell c) :
    ∀ p ∈ splitNl c, p ≠ [] ∧ '|' ∉ p := by
  intro p hp
  obtain ⟨h0, hpipe, hh, hl, hi⟩ := h
  refine ⟨splitNl_pieces_ne_nil c.length c le_rfl h0 hh hl hi p hp, ?_⟩
  intro hm
  exact hpipe (mem_of_mem_splitCh '\n' c p '|' hp hm)

/-- Line structure of a tail of a row text: nonempty first line,
pipe-free nonempty continuation lines, only the final line ending with a
pipe. -/
def TailGood (t : Str) : Prop :=
  ∃ l1 ls, splitNl t = l1 :: ls ∧ l1 ≠ [] ∧
    (∀ l ∈ ls, startsPipe l = false ∧ l ≠ []) ∧
    (∀ l ∈ (l1 :: ls).dropLast, endsPipe l = false) ∧
    (∃ lf, (l1 :: ls).getLast? = some lf ∧ endsPipe lf = true)

/-- Line structure of a complete row text: additionally the first line
starts with exactly one pipe. -/
def RowLinesGood (s : Str) : Prop :=
  ∃ l1 ls, splitNl s = l1 :: ls ∧
    startsPipe l1 = true ∧ startsPP l1 = false ∧
    (∀ l ∈ ls, startsPipe l = false ∧ l ≠ []) ∧
    (∀ l ∈ (l1 :: ls).dropLast, endsPipe l = false) ∧
    (∃ lf, (l1 :: ls).getLast? = some lf ∧ endsPipe lf = true)

theorem tailGood_pipe : TailGood ['|'] := by
  refine ⟨['|'], [], rfl, by simp, by simp, by simp, ['|'], rfl, by decide⟩

theorem tailGood_of_rowLinesGood (s : Str) (h : RowLinesGood s) :
    TailGood s := by
  obtain ⟨l1, ls, h1, h2, h3, h4, h5, h6⟩ := h
  refine ⟨l1, ls, h1, ?_, h4, h5, h6⟩
  intro he
  rw [he] at h2
  simp [startsPipe] at h2

theorem stepTail (c : Str) (hc : wfCell c) (t : Str) (ht : TailGood t) :
    RowLinesGood (('|' :: c) ++ t) := by
  obtain ⟨l1t, lst, hsplit, hl1t, hlst, hdropt, lf, hlastt, hlf⟩ := ht
  cases hq : splitNl c with
  | nil => exact absurd hq (splitCh_ne_nil '\n' c)
  | cons q qs =>
    have hpieces := cell_pieces c hc
    have hq0 : q ≠ [] ∧ '|' ∉ q :=
      hpieces q (by rw [hq]; exact List.mem_cons_self _ _)
    have hsc : splitNl ('|' :: c) = ('|' :: q) :: qs := by
      have he : splitCh '\n' ('|' :: c) = consHead '|' (splitCh '\n' c) := by
        simp [splitCh]
      rw [splitNl, he, show splitCh '\n' c = splitNl c from rfl, hq]
      rfl
    have hl1tne : (l1t :: lst) ≠ [] := by simp
    rcases List.eq_nil_or_concat' qs with hqs | ⟨qs0, pl, hqs⟩
    · subst hqs
      have happ := splitNl_append_of ('|' :: c) t [] ('|' :: q) [] lst l1t
        (by rw [hsc]; rfl) hsplit
      refine ⟨'|' :: (q ++ l1t), lst, ?_, by simp [startsPipe], ?_, hlst,
        ?_, ?_⟩
      · rw [happ]
        simp
      · cases hqc : q with
        | nil => exact absurd hqc hq0.1
        | cons qh qt =>
          have hqh : ¬(qh = '|') :=
            fun he => hq0.2 (by rw [hqc]; exact he ▸ List.mem_cons_self _ _)
          simp [startsPP, startsPipe, hqh]
      · intro l hl
        have hepl1 : endsPipe ('|' :: (q ++ l1t)) = endsPipe l1t := by
          rw [show ('|' :: (q ++ l1t)) = ['|'] ++ (q ++ l1t) from rfl,
            endsPipe_append _ _ (by simp [hl1t]),
            endsPipe_append _ _ hl1t]
        cases hlst0 : lst with
        | nil => rw [hlst0] at hl; simp at hl
        | cons a as =>
          rw [hlst0] at hl
          rw [show ('|' :: (q ++ l1t)) :: a :: as
              = ('|' :: (q ++ l1t)) :: (a :: as) from rfl] at hl
          rcases List.mem_cons.mp (by simpa using hl) with h1 | h1
          · rw [h1, hepl1]
            exact hdropt l1t (by rw [hlst0]; exact List.mem_cons_self _ _)
          · exact hdropt l (by
              rw [hlst0]
              exact List.mem_cons_of_mem l1t (by simpa using h1))
      · cases hlst0 : lst with
        | nil =>
          refine ⟨'|' :: (q ++ l1t), rfl, ?_⟩
          have hepl1 : endsPipe ('|' :: (q ++ l1t)) = endsPipe l1t := by
            rw [show ('|' :: (q ++ l1t)) = ['|'] ++ (q ++ l1t) from rfl,
              endsPipe_append _ _ (by simp [hl1t]),
              endsPipe_append _ _ hl1t]
          rw [hepl1]
          rw [hlst0] at hlastt
          simp only [List.getLast?_singleton] at hlastt
          cases hlastt
          exact hlf
        | cons a as =>
          refine ⟨lf, ?_, hlf⟩
          rw [hlst0] at hlastt
          rw [show (('|' :: (q ++ l1t)) :: a :: as).getLast?
              = (a :: as).getLast? from rfl]
          rw [show (l1t :: a :: as).getLast? = (a :: as).getLast? from rfl]
            at hlastt
          exact hlastt
    · have hpl : pl ≠ [] ∧ '|' ∉ pl :=
        hpieces pl (by rw [hq, hqs]; simp)
      have happ := splitNl_append_of ('|' :: c) t (('|' :: q) :: qs0) pl
        [] lst l1t (by rw [hsc, hqs]; rfl) hsplit
      have hqsp : ∀ p ∈ qs0, p ≠ [] ∧ '|' ∉ p := by
        intro p hp
        exact hpieces p (by rw [hq, hqs]; simp [hp])
      refine ⟨'|' :: q, qs0 ++ (pl ++ l1t) :: lst, ?_, by simp [startsPipe],
        ?_, ?_, ?_, ?_⟩
      · rw [happ]
        rfl
      · cases hqc : q with
        | nil => exact absurd hqc hq0.1
        | cons qh qt =>
          have hqh : ¬(qh = '|') :=
            fun he => hq0.2 (by rw [hqc]; exact he ▸ List.mem_cons_self _ _)
          simp [startsPP, startsPipe, hqh]
      · intro l hl
        rcases List.mem_append.mp hl with h1 | h1
        · have hp := hqsp l h1
          exact ⟨startsPipe_false_of_no_pipe l hp.2, hp.1⟩
        · rcases List.mem_cons.mp h1 with h2 | h2
          · subst h2
            constructor
            · rw [show pl ++ l1t = pl ++ l1t from rfl]
              cases hplc : pl with
              | nil => exact absurd hplc hpl.1
              | cons ph pt =>
                have hph : ¬(ph = '|') := fun he => hpl.2
                  (by rw [hplc]; exact he ▸ List.mem_cons_self _ _)
                simp [startsPipe, hph]
            · simp [hl1t]
          · exact hlst l h2
      · intro l hl
        have hshape : (('|' :: q) :: (qs0 ++ (pl ++ l1t) :: lst)).dropLast
            = ('|' :: q) :: (qs0 ++ ((pl ++ l1t) :: lst).dropLast) := by
          rw [show (('|' :: q) :: (qs0 ++ (pl ++ l1t) :: lst))
              = (('|' :: q) :: qs0) ++ ((pl ++ l1t) :: lst) from by simp,
            List.dropLast_append_of_ne_nil _ (by simp)]
          simp
        rw [hshape] at hl
        rcases List.mem_cons.mp hl with h1 | h1
        · rw [h1, show ('|' :: q) = ['|'] ++ q from rfl,
            endsPipe_append _ _ hq0.1]
          exact endsPipe_false_of_no_pipe q hq0.2
        · rcases List.mem_append.mp h1 with h2 | h2
          · have hp := hqsp l h2
            exact endsPipe_false_of_no_pipe l hp.2
          · cases hlst0 : lst with
            | nil =>
              rw [hlst0] at h2
              simp at h2
            | cons a as =>
              rw [hlst0] at h2
              rw [show ((pl ++ l1t) :: a :: as).dropLast
                  = (pl ++ l1t) :: (a :: as).dropLast from rfl] at h2
              rcases List.mem_cons.mp h2 with h3 | h3
              · rw [h3, endsPipe_append _ _ hl1t]
                exact hdropt l1t
                  (by rw [hlst0]; exact List.mem_cons_self _ _)
              · apply hdropt l
                rw [hlst0]
                exact List.mem_cons_of_mem l1t (by simpa using h3)
      · cases hlst0 : lst with
        | nil =>
          refine ⟨pl ++ l1t, ?_, ?_⟩
          · rw [show (('|' :: q) :: (qs0 ++ [pl ++ l1t]))
                = (('|' :: q) :: qs0) ++ [pl ++ l1t] from by simp]
            exact List.getLast?_concat _
          · rw [endsPipe_append _ _ hl1t]
            rw [hlst0] at hlastt
            simp only [List.getLast?_singleton] at hlastt
            cases hlastt
            exact hlf
        | cons a as =>
          refine ⟨lf, ?_, hlf⟩
          rw [hlst0] at hlastt
          rw [show (('|' :: q) :: (qs0 ++ (pl ++ l1t) :: a :: as))
              = (('|' :: q) :: (qs0 ++ [pl ++ l1t])) ++ (a :: as) from
                by simp,
            List.getLast?_append_of_ne_nil _ (by simp)]
          rw [show (l1t :: a :: as).getLast? = (a :: as).getLast? from rfl]
            at hlastt
          exact hlastt

theorem joinSep_cons (sep : Str) (c : Str) (cs : List Str) (h : cs ≠ []) :
    joinSep sep (c :: cs) = c ++ sep ++ joinSep sep cs := by
  cases cs with
  | nil => exact absurd rfl h
  | cons a as => rfl

theorem rowText_cons (c : Str) (cs : List Str) (h : cs ≠ []) :
    rowText (c :: cs) = ('|' :: c) ++ rowText cs := by
  rw [rowText, rowText, joinSep_cons ['|'] c cs h]
  simp

theorem rowText_good (r : List Str) (hr : wfRow r) :
    RowLinesGood (rowText r) := by
  obtain ⟨hr0, hrc⟩ := hr
  induction r with
  | nil => exact absurd rfl hr0
  | cons c cs ih =>
    cases hcs : cs with
    | nil =>
      have : rowText [c] = ('|' :: c) ++ ['|'] := by
        rw [rowText]
        simp [joinSep]
      rw [this]
      exact stepTail c (hrc c (by simp)) ['|'] tailGood_pipe
    | cons a as =>
      rw [← hcs, rowText_cons c cs (by rw [hcs]; simp)]
      apply stepTail c (hrc c (by simp))
      apply tailGood_of_rowLinesGood
      exact ih (by rw [hcs]; simp)
        (fun x hx => hrc x (List.mem_cons_of_mem c hx))

theorem joinUntil_done (done stop : Str → Bool) (acc : Str)
    (h : done acc = true) :
    ∀ rest, joinUntil done stop acc rest = (acc, rest) := by
  intro rest
  cases rest with
  | nil => rfl
  | cons n r => simp [joinUntil, h]

theorem endsPipe_nil : endsPipe ([] : Str) = false := by decide

theorem endsPipe_join_cons (acc m : Str) (h : endsPipe m = false) :
    endsPipe (acc ++ '\n' :: m) = false := by
  rw [endsPipe_append acc ('\n' :: m) (by simp)]
  cases m with
  | nil => decide
  | cons x r =>
    rw [show ('\n' :: x :: r) = ['\n'] ++ (x :: r) from rfl,
      endsPipe_append _ _ (by simp)]
    exact h

theorem joinNl_shift (acc m : Str) (X : List Str) :
    joinNl ((acc ++ '\n' :: m) :: X) = acc ++ '\n' :: joinNl (m :: X) := by
  cases X with
  | nil => rfl
  | cons b bs =>
    rw [show joinNl ((acc ++ '\n' :: m) :: b :: bs)
        = (acc ++ '\n' :: m) ++ '\n' :: joinNl (b :: bs) from
      joinCh_cons '\n' _ _ (by simp)]
    rw [show joinNl (m :: b :: bs) = m ++ '\n' :: joinNl (b :: bs) from
      joinCh_cons '\n' _ _ (by simp)]
    simp

theorem joinUntil_complete (stop : Str → Bool) :
    ∀ (ls0 : List Str) (acc lfin : Str) (rest : List Str),
      endsPipe acc = false →
      (∀ l ∈ ls0, stop l = false ∧ endsPipe l = false) →
      stop lfin = false → endsPipe lfin = true →
      joinUntil endsPipe stop acc (ls0 ++ lfin :: rest)
        = (joinNl (acc :: (ls0 ++ [lfin])), rest) := by
  intro ls0
  induction ls0 with
  | nil =>
    intro acc lfin rest hacc hls hstop hfin
    have hfne : lfin ≠ [] := by
      intro he
      rw [he, endsPipe_nil] at hfin
      exact Bool.false_ne_true hfin
    have hstep : joinUntil endsPipe stop acc (lfin :: rest)
        = joinUntil endsPipe stop (acc ++ '\n' :: lfin) rest := by
      simp [joinUntil, hacc, hstop]
    have hdone : endsPipe (acc ++ '\n' :: lfin) = true := by
      rw [endsPipe_append acc ('\n' :: lfin) (by simp),
        show ('\n' :: lfin) = ['\n'] ++ lfin from rfl,
        endsPipe_append _ _ hfne]
      exact hfin
    rw [List.nil_append, hstep, joinUntil_done _ _ _ hdone]
    rw [show joinNl (acc :: ([] ++ [lfin])) = acc ++ '\n' :: joinNl [lfin]
      from joinCh_cons '\n' _ _ (by simp)]
    rfl
  | cons m ms ih =>
    intro acc lfin rest hacc hls hstop hfin
    have hm := hls m (by simp)
    rw [List.cons_append,
      show joinUntil endsPipe stop acc (m :: (ms ++ lfin :: rest))
        = joinUntil endsPipe stop (acc ++ '\n' :: m) (ms ++ lfin :: rest)
      from by simp [joinUntil, hacc, hm.1]]
    rw [ih (acc ++ '\n' :: m) lfin rest (endsPipe_join_cons acc m hm.2)
      (fun l hl => hls l (List.mem_cons_of_mem m hl)) hstop hfin]
    rw [joinNl_shift]
    rw [show joinNl (acc :: (m :: ms ++ [lfin]))
        = acc ++ '\n' :: joinNl (m :: ms ++ [lfin]) from
      joinCh_cons '\n' _ _ (by simp)]
    rfl

theorem joinUntil_incomplete (stop : Str → Bool) :
    ∀ (ls : List Str) (acc : Str),
      endsPipe acc = false →
      (∀ l ∈ ls, stop l = false ∧ endsPipe l = false) →
      joinUntil endsPipe stop acc ls = (joinNl (acc :: ls), []) ∧
        endsPipe (joinNl (acc :: ls)) = false := by
  intro ls
  induction ls with
  | nil =>
    intro acc hacc _
    exact ⟨rfl, hacc⟩
  | cons m ms ih =>
    intro acc hacc hls
    have hm := hls m (by simp)
    have hrec := ih (acc ++ '\n' :: m) (endsPipe_join_cons acc m hm.2)
      (fun l hl => hls l (List.mem_cons_of_mem m hl))
    constructor
    · rw [show joinUntil endsPipe stop acc (m :: ms)
          = joinUntil endsPipe stop (acc ++ '\n' :: m) ms from by
        simp [joinUntil, hacc, hm.1]]
      rw [hrec.1, joinNl_shift]
      rw [show joinNl (acc :: m :: ms) = acc ++ '\n' :: joinNl (m :: ms)
        from joinCh_cons '\n' _ _ (by simp)]
    · rw [show joinNl (acc :: m :: ms) = acc ++ '\n' :: joinNl (m :: ms)
        from joinCh_cons '\n' _ _ (by simp)]
      have h2 := hrec.2
      rw [joinNl_shift] at h2
      exact h2

theorem rowText_endsPipe (r : List Str) : endsPipe (rowText r) = true := by
  rw [rowText, endsPipe,
    show ('|' :: (joinSep ['|'] r ++ ['|']))
      = (['|'] ++ joinSep ['|'] r) ++ ['|'] from by simp,
    List.getLast?_concat]
  simp

theorem joinRow (stop : Str → Bool) (r : List Str) (hr : wfRow r)
    (hstop : ∀ l, startsPipe l = false → l ≠ [] → stop l = false) :
    ∃ l1 ls, splitNl (rowText r) = l1 :: ls ∧ isDataStart l1 = true ∧
      isHeaderForm l1 = false ∧
      ∀ rest, joinUntil endsPipe stop l1 (ls ++ rest) = (rowText r, rest) := by
  obtain ⟨l1, ls, hsp, hsps, hspp, hcont, hdrop, lf, hlast, hlf⟩ :=
    rowText_good r hr
  have hjoin : joinNl (l1 :: ls) = rowText r := by
    rw [← hsp]
    exact joinCh_splitCh '\n' _
  refine ⟨l1, ls, hsp, by simp only [isDataStart, hsps, hspp]; rfl,
    by simp only [isHeaderForm, hspp, Bool.false_and], ?_⟩
  intro rest
  rcases List.eq_nil_or_concat' ls with hls0 | ⟨ls0, lfin, hls0⟩
  · subst hls0
    have hl1 : l1 = rowText r := by
      rw [← hjoin]
      rfl
    have he : endsPipe l1 = true := by
      rw [hl1]
      exact rowText_endsPipe r
    rw [List.nil_append, joinUntil_done _ _ _ he, hl1]
  · subst hls0
    have hd1 : endsPipe l1 = false := by
      apply hdrop
      rw [show (l1 :: (ls0 ++ [lfin])) = (l1 :: ls0) ++ [lfin] from by simp,
        List.dropLast_concat]
      exact List.mem_cons_self _ _
    have hdls0 : ∀ l ∈ ls0, stop l = false ∧ endsPipe l = false := by
      intro l hl
      have hc := hcont l (List.mem_append.mpr (Or.inl hl))
      refine ⟨hstop l hc.1 hc.2, ?_⟩
      apply hdrop
      rw [show (l1 :: (ls0 ++ [lfin])) = (l1 :: ls0) ++ [lfin] from by simp,
        List.dropLast_concat]
      exact List.mem_cons_of_mem l1 hl
    have hcf := hcont lfin (List.mem_append.mpr (Or.inr (by simp)))
    have hfin : endsPipe lfin = true := by
      have h2 : (l1 :: (ls0 ++ [lfin])).getLast? = some lfin := by
        rw [show (l1 :: (ls0 ++ [lfin])) = (l1 :: ls0) ++ [lfin] from by
          simp]
        exact List.getLast?_concat _
      rw [h2] at hlast
      cases hlast
      exact hlf
    rw [List.append_assoc, List.cons_append, List.nil_append,
      joinUntil_complete stop ls0 l1 lfin rest hd1 hdls0
        (hstop lfin hcf.1 hcf.2) hfin]
    rw [hjoin]

theorem headerForm_false_of_not_pipe (l : Str) (h : startsPipe l = false) :
    isHeaderForm l = false := by
  rw [isHeaderForm, startsPP, h]
  rfl

theorem dataStart_split (l : Str) (h : isDataStart l = true) :
    startsPipe l = true ∧ startsPP l = false := by
  rw [isDataStart, Bool.and_eq_true] at h
  refine ⟨h.1, ?_⟩
  cases hs : startsPP l
  · rfl
  · rw [hs] at h
    simp at h

theorem headerForm_false_of_dataStart (l : Str) (h : isDataStart l = true) :
    isHeaderForm l = false := by
  rw [isHeaderForm, (dataStart_split l h).2]
  rfl

theorem nStop_false (l : Str) (h1 : startsPipe l = false) (h2 : l ≠ []) :
    (isHeaderForm l || startsPipe l || decide (l = [])) = false := by
  rw [headerForm_false_of_not_pipe l h1, h1]
  simp [h2]

/-- The line list a block of raw rows contributes to the split input. -/
def rowsLines : List (List Str) → List Str
  | [] => []
  | r :: rows => splitNl (rowText r) ++ rowsLines rows

theorem rowsLines_cons (r : List Str) (rows : List (List Str)) :
    rowsLines (r :: rows) = splitNl (rowText r) ++ rowsLines rows := rfl

theorem rowsLines_length (rows : List (List Str)) :
    rows.length ≤ (rowsLines rows).length := by
  induction rows with
  | nil => simp [rowsLines]
  | cons r rows ih =>
    rw [rowsLines_cons]
    have h1 : 1 ≤ (splitNl (rowText r)).length := by
      cases hq : splitNl (rowText r) with
      | nil => exact absurd hq (splitCh_ne_nil '\n' _)
      | cons a as => simp
    simp only [List.length_append, List.length_cons]
    omega

theorem collectHGo_nil (f : Nat) : collectHGo f [] = ([], []) := by
  cases f <;> rfl

theorem collectNGo_nil (f : Nat) : collectNGo f [] = ([], []) := by
  cases f <;> rfl

theorem convGo_nil (f : Nat) : convGo f [] = [] := by
  cases f <;> rfl

theorem extractGo_nil (f tabs : Nat) : extractGo f tabs [] = ([], []) := by
  cases f <;> rfl

theorem collectHGo_data (f : Nat) (l : Str) (r : List Str)
    (h1 : isHeaderForm l = false) (h2 : isDataStart l = true) :
    collectHGo (f + 1) (l :: r)
      = (if endsPipe (joinUntil endsPipe isHeaderForm l r).1 then
          (joinUntil endsPipe isHeaderForm l r).1
            :: (collectHGo f (joinUntil endsPipe isHeaderForm l r).2).1
         else (collectHGo f (joinUntil endsPipe isHeaderForm l r).2).1,
         (collectHGo f (joinUntil endsPipe isHeaderForm l r).2).2) := by
  simp [collectHGo, h1, h2]

theorem collectNGo_data (f : Nat) (l : Str) (r : List Str)
    (h2 : isDataStart l = true) :
    collectNGo (f + 1) (l :: r)
      = (if endsPipe (joinUntil endsPipe
            (fun n => isHeaderForm n || startsPipe n || decide (n = []))
            l r).1 then
          (joinUntil endsPipe
            (fun n => isHeaderForm n || startsPipe n || decide (n = []))
            l r).1
            :: (collectNGo f (joinUntil endsPipe
              (fun n => isHeaderForm n || startsPipe n || decide (n = []))
              l r).2).1
         else (collectNGo f (joinUntil endsPipe
            (fun n => isHeaderForm n || startsPipe n || decide (n = []))
            l r).2).1,
         (collectNGo f (joinUntil endsPipe
            (fun n => isHeaderForm n || startsPipe n || decide (n = []))
            l r).2).2) := by
  simp [collectNGo, h2]

theorem extractGo_header (f tabs : Nat) (l : Str) (r : List Str)
    (hl : isHeaderForm l = true) :
    extractGo (f + 1) tabs (l :: r)
      = (tableTok tabs :: (extractGo f (tabs + 1) (collectHGo r.length r).2).1,
         joinNl (l :: (collectHGo r.length r).1)
           :: (extractGo f (tabs + 1) (collectHGo r.length r).2).2) := by
  simp [extractGo, hl]

theorem convGo_header (f : Nat) (l : Str) (r : List Str)
    (h1 : startsPP l = true) (h2 : endsPP l = true) :
    convGo (f + 1) (l :: r)
      = [mdRowOf ((splitPP (trimPipes l)).map brCell),
         sepRowOf ((splitPP (trimPipes l)).map brCell).length]
          ++ convGo f r := by
  have hj : joinUntil endsPP (fun _ => false) l r = (l, r) :=
    joinUntil_done _ _ _ h2 r
  simp [convGo, h1, hj, h2]

theorem convGo_data (f : Nat) (l : Str) (r : List Str)
    (h1 : startsPP l = false) (h2 : startsPipe l = true) :
    convGo (f + 1) (l :: r)
      = (if endsPipe (joinUntil endsPipe (fun _ => false) l r).1 then
          [mdRowOf ((splitCh '|' (trimPipes
            (joinUntil endsPipe (fun _ => false) l r).1)).map brCell)]
         else [])
        ++ convGo f (joinUntil endsPipe (fun _ => false) l r).2 := by
  simp [convGo, h1, h2]

theorem collectHGo_rows (rows : List (List Str)) :
    ∀ (f : Nat) (tail : List Str), (∀ r ∈ rows, wfRow r) →
      rows.length ≤ f →
      collectHGo f (rowsLines rows ++ tail)
        = ((rows.map rowText) ++ (collectHGo (f - rows.length) tail).1,
           (collectHGo (f - rows.length) tail).2) := by
  induction rows with
  | nil =>
    intro f tail _ _
    simp [rowsLines]
  | cons r rows ih =>
    intro f tail hwf hlen
    obtain ⟨l1, ls, hsp, hds, hnh, hju⟩ :=
      joinRow isHeaderForm r (hwf r (by simp))
        (fun l h1 _ => headerForm_false_of_not_pipe l h1)
    cases f with
    | zero => simp at hlen
    | succ f =>
      have hlen2 : rows.length ≤ f := by
        simp at hlen
        omega
      have hlines : rowsLines (r :: rows) ++ tail
          = l1 :: (ls ++ (rowsLines rows ++ tail)) := by
        rw [rowsLines_cons, hsp]
        simp
      rw [hlines, collectHGo_data f l1 _ hnh hds,
        hju (rowsLines rows ++ tail)]
      rw [if_pos (rowText_endsPipe r),
        ih f tail (fun x hx => hwf x (List.mem_cons_of_mem r hx)) hlen2]
      simp [Nat.succ_sub_succ]

theorem collectNGo_rows (rows : List (List Str)) :
    ∀ (f : Nat) (tail : List Str), (∀ r ∈ rows, wfRow r) →
      rows.length ≤ f →
      collectNGo f (rowsLines rows ++ tail)
        = ((rows.map rowText) ++ (collectNGo (f - rows.length) tail).1,
           (collectNGo (f - rows.length) tail).2) := by
  induction rows with
  | nil =>
    intro f tail _ _
    simp [rowsLines]
  | cons r rows ih =>
    intro f tail hwf hlen
    obtain ⟨l1, ls, hsp, hds, hnh, hju⟩ :=
      joinRow (fun n => isHeaderForm n || startsPipe n || decide (n = []))
        r (hwf r (by simp)) nStop_false
    cases f with
    | zero => simp at hlen
    | succ f =>
      have hlen2 : rows.length ≤ f := by
        simp at hlen
        omega
      have hlines : rowsLines (r :: rows) ++ tail
          = l1 :: (ls ++ (rowsLines rows ++ tail)) := by
        rw [rowsLines_cons, hsp]
        simp
      rw [hlines, collectNGo_data f l1 _ hds,
        hju (rowsLines rows ++ tail)]
      rw [if_pos (rowText_endsPipe r),
        ih f tail (fun x hx => hwf x (List.mem_cons_of_mem r hx)) hlen2]
      simp [Nat.succ_sub_succ]

theorem not_mem_joinSep (sep : Str) (x : Char) (hs : x ∉ sep) :
    ∀ (ls : List Str), (∀ l ∈ ls, x ∉ l) → x ∉ joinSep sep ls := by
  intro ls
  induction ls with
  | nil =>
    intro _
    simp [joinSep]
  | cons l ls ih =>
    intro h
    cases ls with
    | nil => simpa [joinSep] using h l (by simp)
    | cons a as =>
      rw [joinSep_cons sep l (a :: as) (by simp)]
      simp only [List.mem_append, not_or]
      exact ⟨⟨h l (by simp), hs⟩,
        ih (fun m hm => h m (List.mem_cons_of_mem l hm))⟩

theorem joinSep_ne_nil (sep : Str) (cs : List Str) (c : Str) (h0 : c ≠ []) :
    joinSep sep (c :: cs) ≠ [] := by
  cases cs with
  | nil => exact h0
  | cons d ds =>
    rw [joinSep_cons sep c (d :: ds) (by simp)]
    cases c with
    | nil => exact absurd rfl h0
    | cons x r => simp

theorem joinSep_head? (sep : Str) (c : Str) (cs : List Str) (h0 : c ≠ []) :
    (joinSep sep (c :: cs)).head? = c.head? := by
  cases cs with
  | nil => rfl
  | cons d ds =>
    rw [joinSep_cons sep c (d :: ds) (by simp)]
    cases c with
    | nil => exact absurd rfl h0
    | cons x r => rfl

theorem joinSep_getLast (sep : Str) :
    ∀ (cs : List Str) (c : Str), (∀ m ∈ c :: cs, m ≠ []) →
      ∃ lc, (c :: cs).getLast? = some lc ∧
        (joinSep sep (c :: cs)).getLast? = lc.getLast? := by
  intro cs
  induction cs with
  | nil =>
    intro c _
    exact ⟨c, rfl, rfl⟩
  | cons d ds ih =>
    intro c h
    obtain ⟨lc, h1, h2⟩ := ih d (fun m hm => h m (List.mem_cons_of_mem c hm))
    have hne : joinSep sep (d :: ds) ≠ [] :=
      joinSep_ne_nil sep ds d (h d (by simp))
    refine ⟨lc, ?_, ?_⟩
    · rw [List.getLast?_cons_cons]
      exact h1
    · rw [joinSep_cons sep c (d :: ds) (by simp),
        show c ++ sep ++ joinSep sep (d :: ds)
          = c ++ (sep ++ joinSep sep (d :: ds)) from by simp,
        List.getLast?_append_of_ne_nil c (fun he =>
          hne (List.append_eq_nil.mp he).2),
        List.getLast?_append_of_ne_nil sep hne]
      exact h2

theorem dropWhile_pipe_of_head (s : Str) (hh : s.head? ≠ some '|') :
    s.dropWhile (fun c => decide (c = '|')) = s := by
  cases s with
  | nil => rfl
  | cons x r =>
    have hx : ¬(x = '|') := fun he => hh (by rw [he]; rfl)
    rw [List.dropWhile_cons, if_neg (by simpa using hx)]

theorem trimPipes_one (J : Str) (h0 : J ≠ []) (hh : J.head? ≠ some '|')
    (hl : J.getLast? ≠ some '|') :
    trimPipes ('|' :: (J ++ ['|'])) = J := by
  rw [trimPipes]
  have e1 : ('|' :: (J ++ ['|'])).dropWhile (fun c => decide (c = '|'))
      = J ++ ['|'] := by
    rw [List.dropWhile_cons, if_pos (by decide)]
    cases J with
    | nil => exact absurd rfl h0
    | cons x r =>
      have hx : ¬(x = '|') := fun he => hh (by rw [he]; rfl)
      rw [List.cons_append, List.dropWhile_cons, if_neg (by simpa using hx)]
  rw [e1, show (J ++ ['|']).reverse = '|' :: J.reverse from by simp,
    List.dropWhile_cons, if_pos (by decide),
    dropWhile_pipe_of_head J.reverse (by rw [List.head?_reverse]; exact hl),
    List.reverse_reverse]

theorem trimPipes_two (K : Str) (h0 : K ≠ []) (hh : K.head? ≠ some '|')
    (hl : K.getLast? ≠ some '|') :
    trimPipes ('|' :: '|' :: (K ++ ['|', '|'])) = K := by
  rw [trimPipes]
  have e1 : ('|' :: '|' :: (K ++ ['|', '|'])).dropWhile
      (fun c => decide (c = '|')) = K ++ ['|', '|'] := by
    rw [List.dropWhile_cons, if_pos (by decide),
      List.dropWhile_cons, if_pos (by decide)]
    cases K with
    | nil => exact absurd rfl h0
    | cons x r =>
      have hx : ¬(x = '|') := fun he => hh (by rw [he]; rfl)
      rw [List.cons_append, List.dropWhile_cons, if_neg (by simpa using hx)]
  rw [e1, show (K ++ ['|', '|']).reverse = '|' :: '|' :: K.reverse from by
      simp,
    List.dropWhile_cons, if_pos (by decide),
    List.dropWhile_cons, if_pos (by decide),
    dropWhile_pipe_of_head K.reverse (by rw [List.head?_reverse]; exact hl),
    List.reverse_reverse]

theorem splitPP_of_not_mem (s : Str) (h : '|' ∉ s) : splitPP s = [s] := by
  induction s with
  | nil => rfl
  | cons c r ih =>
    have hc : ¬(c = '|') := fun he => h (he ▸ List.mem_cons_self c r)
    cases r with
    | nil => rfl
    | cons b rb =>
      rw [show splitPP (c :: b :: rb) = consHead c (splitPP (b :: rb)) from
          by simp [splitPP, hc],
        ih (fun hm => h (List.mem_cons_of_mem c hm))]
      rfl

theorem splitPP_cells (a : Str) (ha : '|' ∉ a) :
    ∀ b, splitPP (a ++ '|' :: '|' :: b) = a :: splitPP b := by
  induction a with
  | nil =>
    intro b
    simp [splitPP]
  | cons c r ih =>
    intro b
    have hc : ¬(c = '|') := fun he => ha (he ▸ List.mem_cons_self c r)
    cases hr : r ++ '|' :: '|' :: b with
    | nil => exact absurd hr (by simp)
    | cons y ys =>
      rw [List.cons_append, hr, show splitPP (c :: y :: ys)
          = consHead c (splitPP (y :: ys)) from by simp [splitPP, hc],
        ← hr, ih (fun hm => ha (List.mem_cons_of_mem c hm)) b]
      rfl

theorem splitPP_joinSep (hd : List Str) (h0 : hd ≠ [])
    (h : ∀ c ∈ hd, '|' ∉ c) :
    splitPP (joinSep ['|', '|'] hd) = hd := by
  induction hd with
  | nil => exact absurd rfl h0
  | cons c cs ih =>
    cases cs with
    | nil => exact splitPP_of_not_mem c (h c (by simp))
    | cons d ds =>
      rw [joinSep_cons _ _ _ (by simp),
        show c ++ ['|', '|'] ++ joinSep ['|', '|'] (d :: ds)
          = c ++ '|' :: '|' :: joinSep ['|', '|'] (d :: ds) from by simp,
        splitPP_cells c (h c (by simp)) _,
        ih (by simp) (fun m hm => h m (List.mem_cons_of_mem c hm))]

theorem joinSep_single (sep : Char) (ls : List Str) :
    joinSep [sep] ls = joinCh sep ls := by
  induction ls with
  | nil => rfl
  | cons l ls ih =>
    cases ls with
    | nil => rfl
    | cons a as =>
      rw [joinSep_cons [sep] l (a :: as) (by simp),
        joinCh_cons sep l (a :: as) (by simp), ih]
      simp

theorem brCell_no_nl (c : Str) (h : '\n' ∉ c) : brCell c = c := by
  induction c with
  | nil => rfl
  | cons x r ih =>
    have hx : ¬(x = '\n') := fun he => h (he ▸ List.mem_cons_self x r)
    rw [show brCell (x :: r) = if x = '\n' then str "<br>" ++ brCell r
        else x :: brCell r from rfl,
      if_neg hx, ih (fun hm => h (List.mem_cons_of_mem x hm))]

theorem splitRow_cells (r : List Str) (hr : wfRow r) :
    splitCh '|' (trimPipes (rowText r)) = r := by
  obtain ⟨h0, hc⟩ := hr
  cases r with
  | nil => exact absurd rfl h0
  | cons c cs =>
    have hcell := hc c (by simp)
    have hJne : joinSep ['|'] (c :: cs) ≠ [] :=
      joinSep_ne_nil _ cs c hcell.1
    have hJh : (joinSep ['|'] (c :: cs)).head? ≠ some '|' := by
      rw [joinSep_head? _ c cs hcell.1]
      cases c with
      | nil => exact absurd rfl hcell.1
      | cons x xr =>
        intro hco
        have hx : x = '|' := by simpa using hco
        exact hcell.2.1 (by rw [hx]; exact List.mem_cons_self _ _)
    have hJl : (joinSep ['|'] (c :: cs)).getLast? ≠ some '|' := by
      obtain ⟨lc, h1, h2⟩ := joinSep_getLast ['|'] cs c
        (fun m hm => (hc m hm).1)
      rw [h2]
      intro hco
      exact (hc lc (List.mem_of_mem_getLast? h1)).2.1
        (List.mem_of_mem_getLast? hco)
    rw [rowText, trimPipes_one _ hJne hJh hJl, joinSep_single,
      splitCh_joinCh '|' (c :: cs) (by simp) (fun m hm => (hc m hm).2.1)]

theorem splitHeader_cells (hd : List Str) (hh : wfHeader hd) :
    splitPP (trimPipes (headerText hd)) = hd := by
  obtain ⟨h0, hc⟩ := hh
  cases hd with
  | nil => exact absurd rfl h0
  | cons c cs =>
    have hcell := hc c (by simp)
    have hKne : joinSep ['|', '|'] (c :: cs) ≠ [] :=
      joinSep_ne_nil _ cs c hcell.1
    have hKh : (joinSep ['|', '|'] (c :: cs)).head? ≠ some '|' := by
      rw [joinSep_head? _ c cs hcell.1]
      cases c with
      | nil => exact absurd rfl hcell.1
      | cons x xr =>
        intro hco
        have hx : x = '|' := by simpa using hco
        exact hcell.2.1 (by rw [hx]; exact List.mem_cons_self _ _)
    have hKl : (joinSep ['|', '|'] (c :: cs)).getLast? ≠ some '|' := by
      obtain ⟨lc, h1, h2⟩ := joinSep_getLast ['|', '|'] cs c
        (fun m hm => (hc m hm).1)
      rw [h2]
      intro hco
      exact (hc lc (List.mem_of_mem_getLast? h1)).2.1
        (List.mem_of_mem_getLast? hco)
    rw [headerText, trimPipes_two _ hKne hKh hKl,
      splitPP_joinSep (c :: cs) (by simp) (fun m hm => (hc m hm).2.1)]

theorem headerText_no_nl (hd : List Str) (hh : wfHeader hd) :
    '\n' ∉ headerText hd := by
  rw [headerText]
  intro hm
  rcases List.mem_cons.mp hm with h1 | hm2
  · exact absurd h1 (by decide)
  rcases List.mem_cons.mp hm2 with h1 | hm3
  · exact absurd h1 (by decide)
  rcases List.mem_append.mp hm3 with h1 | h1
  · exact not_mem_joinSep ['|', '|'] '\n' (by decide) hd
      (fun c hc => (hh.2 c hc).2.2) h1
  · exact absurd h1 (by decide)

theorem headerText_startsPP (hd : List Str) :
    startsPP (headerText hd) = true := rfl

theorem headerText_endsPP (hd : List Str) :
    endsPP (headerText hd) = true := by
  have he : headerText hd
      = (('|' :: '|' :: joinSep ['|', '|'] hd) ++ ['|']) ++ ['|'] := by
    rw [headerText]
    simp
  rw [endsPP, endsPipe, he, List.getLast?_concat, List.dropLast_concat,
    List.getLast?_concat]
  rfl

theorem headerText_isHeader (hd : List Str) :
    isHeaderForm (headerText hd) = true := by
  rw [isHeaderForm, headerText_startsPP, headerText_endsPP]
  rfl

theorem map_brCell_id (hd : List Str) (h : ∀ c ∈ hd, '\n' ∉ c) :
    hd.map brCell = hd := by
  induction hd with
  | nil => rfl
  | cons c cs ih =>
    rw [List.map_cons, brCell_no_nl c (h c (by simp)),
      ih (fun m hm => h m (List.mem_cons_of_mem c hm))]

theorem splitNl_rows : ∀ (rows : List (List Str)),
    (∀ r ∈ rows, wfRow r) → rows ≠ [] →
    splitNl (joinNl (rows.map rowText)) = rowsLines rows := by
  intro rows
  induction rows with
  | nil =>
    intro _ h
    exact absurd rfl h
  | cons r rows ih =>
    intro hw _
    cases rows with
    | nil =>
      rw [rowsLines_cons, show rowsLines [] = [] from rfl, List.append_nil]
      rfl
    | cons b bs =>
      have h1 : joinNl (List.map rowText (r :: b :: bs))
          = rowText r ++ '\n' :: joinNl (List.map rowText (b :: bs)) := by
        rw [List.map_cons]
        exact joinCh_cons '\n' _ _ (by simp)
      rw [h1, rowsLines_cons,
        show splitNl (rowText r ++ '\n' :: joinNl (List.map rowText (b :: bs)))
          = splitNl (rowText r)
            ++ splitNl (joinNl (List.map rowText (b :: bs)))
        from splitCh_append_cons '\n' _ _,
        ih (fun x hx => hw x (List.mem_cons_of_mem r hx)) (by simp)]

theorem splitNl_tableText (hd : List Str) (rows : List (List Str))
    (hh : wfHeader hd) (hw : ∀ r ∈ rows, wfRow r) (h0 : rows ≠ []) :
    splitNl (tableText hd rows) = headerText hd :: rowsLines rows := by
  have h1 : tableText hd rows
      = headerText hd ++ '\n' :: joinNl (rows.map rowText) := by
    rw [tableText]
    refine joinCh_cons '\n' _ _ ?_
    cases rows with
    | nil => exact absurd rfl h0
    | cons a as => simp
  rw [h1,
    show splitNl (headerText hd ++ '\n' :: joinNl (rows.map rowText))
      = splitNl (headerText hd) ++ splitNl (joinNl (rows.map rowText))
    from splitCh_append_cons '\n' _ _,
    show splitNl (headerText hd) = [headerText hd]
    from splitCh_of_not_mem '\n' _ (headerText_no_nl hd hh),
    splitNl_rows rows hw h0]
  rfl

theorem convGo_rows (rows : List (List Str)) :
    ∀ (f : Nat) (tail : List Str), (∀ r ∈ rows, wfRow r) →
      rows.length ≤ f →
      convGo f (rowsLines rows ++ tail)
        = rows.map mdRow ++ convGo (f - rows.length) tail := by
  induction rows with
  | nil =>
    intro f tail _ _
    simp [rowsLines]
  | cons r rows ih =>
    intro f tail hwf hlen
    obtain ⟨l1, ls, hsp, hds, hnh, hju⟩ :=
      joinRow (fun _ => false) r (hwf r (by simp)) (fun _ _ _ => rfl)
    obtain ⟨hsps, hspp⟩ := dataStart_split l1 hds
    cases f with
    | zero => simp at hlen
    | succ f =>
      have hlen2 : rows.length ≤ f := by
        simp at hlen
        omega
      have hlines : rowsLines (r :: rows) ++ tail
          = l1 :: (ls ++ (rowsLines rows ++ tail)) := by
        rw [rowsLines_cons, hsp]
        simp
      rw [hlines, convGo_data f l1 _ hspp hsps, hju (rowsLines rows ++ tail),
        if_pos (rowText_endsPipe r),
        ih f tail (fun x hx => hwf x (List.mem_cons_of_mem r hx)) hlen2,
        splitRow_cells r (hwf r (by simp))]
      simp [Nat.succ_sub_succ, mdRow]

theorem extractJIRATables_eq (t : Str) :
    extractJIRATables t
      = (joinNl (extractGo (splitNl t).length 0 (splitNl t)).1,
         (extractGo (splitNl t).length 0 (splitNl t)).2) := rfl

theorem convertJIRATableToMarkdown_cons (t : Str) (l : Str) (r : List Str)
    (hsp : splitNl t = l :: r) :
    convertJIRATableToMarkdown t
      = joinNl ((if isHeaderForm l = false then synthHeader (l :: r) else [])
        ++ convGo (r.length + 1) (l :: r)) := by
  simp [convertJIRATableToMarkdown, hsp]

theorem collectHGo_rows_only (rows : List (List Str))
    (hw : ∀ r ∈ rows, wfRow r) :
    collectHGo (rowsLines rows).length (rowsLines rows)
      = (rows.map rowText, []) := by
  have h := collectHGo_rows rows (rowsLines rows).length [] hw
    (rowsLines_length rows)
  rw [List.append_nil] at h
  rw [h, collectHGo_nil]
  simp

theorem convGo_rows_only (rows : List (List Str))
    (hw : ∀ r ∈ rows, wfRow r) :
    convGo (rowsLines rows).length (rowsLines rows) = rows.map mdRow := by
  have h := convGo_rows rows (rowsLines rows).length [] hw
    (rowsLines_length rows)
  rw [List.append_nil] at h
  rw [h, convGo_nil, List.append_nil]

/-- C5: For every headered table whose cells are well formed, the
extractor replaces the table by its placeholder and stores its exact
text, and the converter emits a Markdown table with exactly the source
shape: one header row over the header cells, one dash-separator row with
one dash-group per header cell, and one data row per source data row
(each rendered by mdRow, which replaces embedded cell newlines by break
tags); in particular the two-row example renders with header H1/H2 and a
dash separator row (see the witness). No hypothesis relates the data
rows' cell counts to the header's, so a header/data cell-count mismatch
is accepted without enforcement. -/
theorem c5_headered_table_shape (hd : List Str) (rows : List (List Str))
    (hh : wfHeader hd) (hw : ∀ r ∈ rows, wfRow r) (h0 : rows ≠ []) :
    extractJIRATables (tableText hd rows)
        = (tableTok 0, [tableText hd rows]) ∧
      convertJIRATableToMarkdown (tableText hd rows)
        = joinNl (mdRowOf hd :: sepRowOf hd.length :: rows.map mdRow) ∧
      (rows.map mdRow).length = rows.length := by
  have hsp := splitNl_tableText hd rows hh hw h0
  refine ⟨?_, ?_, List.length_map _ _⟩
  · rw [extractJIRATables_eq, hsp,
      show (headerText hd :: rowsLines rows).length
        = (rowsLines rows).length + 1 from by simp,
      extractGo_header _ 0 _ _ (headerText_isHeader hd),
      collectHGo_rows_only rows hw]
    show (joinNl (tableTok 0 :: (extractGo (rowsLines rows).length 1
          ([] : List Str)).1),
        joinNl (headerText hd :: rows.map rowText)
          :: (extractGo (rowsLines rows).length 1 ([] : List Str)).2)
      = (tableTok 0, [tableText hd rows])
    rw [extractGo_nil]
    rfl
  · rw [convertJIRATableToMarkdown_cons _ _ _ hsp,
      if_neg (by simp [headerText_isHeader]),
      List.nil_append,
      convGo_header (rowsLines rows).length _ _ (headerText_startsPP hd)
        (headerText_endsPP hd),
      splitHeader_cells hd hh,
      map_brCell_id hd (fun c hc => (hh.2 c hc).2.2),
      convGo_rows_only rows hw]
    rfl

theorem c5_headered_table_shape_witness :
    extractJIRATables (str "||H1||H2||\n|A|B|")
        = (str "__TABLE_0__", [str "||H1||H2||\n|A|B|"]) ∧
      convertJIRATableToMarkdown (str "||H1||H2||\n|A|B|")
        = str "| H1 | H2 |\n| ------ | ------ |\n| A | B |" := by
  have h := c5_headered_table_shape [str "H1", str "H2"]
    [[str "A", str "B"]] (by decide) (by decide) (by decide)
  exact ⟨h.1, h.2.1⟩

/-- C6: For every headerless table (a run of pipe-prefixed data rows
with no header line), the converter synthesizes a blank header row whose
cell count equals the cell count of the table's first data row, followed
by a dash-separator row with the same cell count, followed by the
rendered data rows, so the result is a valid Markdown table. -/
theorem c6_headerless_blank_header (r0 : List Str) (rest : List (List Str))
    (hw : ∀ r ∈ r0 :: rest, wfRow r) :
    convertJIRATableToMarkdown (headerlessText (r0 :: rest))
      = joinNl (blankRowOf r0.length :: sepRowOf r0.length
          :: (r0 :: rest).map mdRow) := by
  obtain ⟨l1, ls, hsp0, hds, hnh, hju⟩ :=
    joinRow (fun _ => false) r0 (hw r0 (by simp)) (fun _ _ _ => rfl)
  have hlines : l1 :: (ls ++ rowsLines rest) = rowsLines (r0 :: rest) := by
    rw [rowsLines_cons, hsp0]
    simp
  have hsp : splitNl (headerlessText (r0 :: rest))
      = l1 :: (ls ++ rowsLines rest) := by
    rw [show headerlessText (r0 :: rest)
        = joinNl ((r0 :: rest).map rowText) from rfl,
      splitNl_rows _ hw (by simp), ← hlines]
  have hcells := splitRow_cells r0 (hw r0 (by simp))
  have hsyn : synthHeader (l1 :: (ls ++ rowsLines rest))
      = [blankRowOf r0.length, sepRowOf r0.length] := by
    simp [synthHeader, hds, hju (rowsLines rest), rowText_endsPipe, hcells]
  rw [convertJIRATableToMarkdown_cons _ l1 (ls ++ rowsLines rest) hsp,
    if_pos (headerForm_false_of_dataStart l1 hds), hsyn,
    show (ls ++ rowsLines rest).length + 1
      = (rowsLines (r0 :: rest)).length from by rw [← hlines]; simp,
    hlines, convGo_rows_only _ hw]
  rfl

theorem c6_headerless_blank_header_witness :
    convertJIRATableToMarkdown (str "|A|B|")
      = str "|   |   |\n| ------ | ------ |\n| A | B |" :=
  c6_headerless_blank_header [str "A", str "B"] [] (by decide)

theorem collectHGo_bad (bl : Str) (bls : List Str) (g : Nat)
    (hbd : isDataStart bl = true) (hbe : endsPipe bl = false)
    (hbls : ∀ l ∈ bls, isHeaderForm l = false ∧ endsPipe l = false) :
    collectHGo (g + 1) (bl :: bls) = ([], []) := by
  have hinc := joinUntil_incomplete isHeaderForm bls bl hbe hbls
  rw [collectHGo_data g bl bls (headerForm_false_of_dataStart bl hbd) hbd,
    hinc.1]
  simp [hinc.2, collectHGo_nil]

theorem joinUntil_stopped (stop : Str → Bool) :
    ∀ (ls0 : List Str) (acc : Str) (hline : Str) (rest : List Str),
      endsPipe acc = false →
      (∀ l ∈ ls0, stop l = false ∧ endsPipe l = false) →
      stop hline = true →
      joinUntil endsPipe stop acc (ls0 ++ hline :: rest)
          = (joinNl (acc :: ls0), hline :: rest) ∧
        endsPipe (joinNl (acc :: ls0)) = false := by
  intro ls0
  induction ls0 with
  | nil =>
    intro acc hline rest hacc _ hstop
    refine ⟨?_, hacc⟩
    simp [joinUntil, hacc, hstop]
    rfl
  | cons m ms ih =>
    intro acc hline rest hacc hls hstop
    have hm := hls m (by simp)
    have hrec := ih (acc ++ '\n' :: m) hline rest
      (endsPipe_join_cons acc m hm.2)
      (fun l hl => hls l (List.mem_cons_of_mem m hl)) hstop
    constructor
    · rw [List.cons_append,
        show joinUntil endsPipe stop acc (m :: (ms ++ hline :: rest))
          = joinUntil endsPipe stop (acc ++ '\n' :: m) (ms ++ hline :: rest)
        from by simp [joinUntil, hacc, hm.1],
        hrec.1, joinNl_shift,
        show joinNl (acc :: m :: ms) = acc ++ '\n' :: joinNl (m :: ms)
        from joinCh_cons '\n' _ _ (by simp)]
    · rw [show joinNl (acc :: m :: ms) = acc ++ '\n' :: joinNl (m :: ms)
        from joinCh_cons '\n' _ _ (by simp)]
      have h2 := hrec.2
      rw [joinNl_shift] at h2
      exact h2

theorem collectHGo_header_stop (g : Nat) (l : Str) (r : List Str)
    (h : isHeaderForm l = true) :
    collectHGo g (l :: r) = ([], l :: r) := by
  cases g with
  | zero => rfl
  | succ g => simp [collectHGo, h]

theorem collectHGo_badstop (bl : Str) (bls : List Str) (g : Nat)
    (hbd : isDataStart bl = true) (hbe : endsPipe bl = false)
    (hbls : ∀ l ∈ bls, isHeaderForm l = false ∧ endsPipe l = false)
    (hline : Str) (rest : List Str) (hh : isHeaderForm hline = true) :
    collectHGo (g + 1) (bl :: (bls ++ hline :: rest))
      = ([], hline :: rest) := by
  have hst := joinUntil_stopped isHeaderForm bls bl hline rest hbe hbls hh
  rw [collectHGo_data g bl _ (headerForm_false_of_dataStart bl hbd) hbd,
    hst.1]
  simp [hst.2, collectHGo_header_stop g hline rest hh]

theorem collectNGo_bad (bl : Str) (bls : List Str) (g : Nat)
    (hbd : isDataStart bl = true) (hbe : endsPipe bl = false)
    (hbls : ∀ l ∈ bls, startsPipe l = false ∧ l ≠ [] ∧ endsPipe l = false) :
    collectNGo (g + 1) (bl :: bls) = ([], []) := by
  have hstops : ∀ l ∈ bls,
      (isHeaderForm l || startsPipe l || decide (l = [])) = false ∧
        endsPipe l = false := by
    intro l hl
    obtain ⟨ha, hb, hc⟩ := hbls l hl
    exact ⟨nStop_false l ha hb, hc⟩
  have hinc := joinUntil_incomplete
    (fun n => isHeaderForm n || startsPipe n || decide (n = [])) bls bl hbe
    hstops
  rw [collectNGo_data g bl bls hbd, hinc.1]
  simp [hinc.2, collectNGo_nil]

theorem extractGo_table (f tabs : Nat) (hd : List Str)
    (rows : List (List Str)) (hw : ∀ r ∈ rows, wfRow r) (hf : 1 ≤ f) :
    extractGo f tabs (headerText hd :: rowsLines rows)
      = ([tableTok tabs], [joinNl (headerText hd :: rows.map rowText)]) := by
  cases f with
  | zero => omega
  | succ f =>
    rw [extractGo_header f tabs _ _ (headerText_isHeader hd),
      collectHGo_rows_only rows hw]
    show (tableTok tabs :: (extractGo f (tabs + 1) ([] : List Str)).1,
        joinNl (headerText hd :: rows.map rowText)
          :: (extractGo f (tabs + 1) ([] : List Str)).2)
      = ([tableTok tabs], [joinNl (headerText hd :: rows.map rowText)])
    rw [extractGo_nil]

theorem extractGo_data (f tabs : Nat) (l : Str) (r : List Str)
    (hnh : isHeaderForm l = false) (hds : isDataStart l = true) :
    extractGo (f + 1) tabs (l :: r)
      = (if (collectNGo (l :: r).length (l :: r)).1 = [] then
          ((extractGo f tabs (collectNGo (l :: r).length (l :: r)).2).1,
           (extractGo f tabs (collectNGo (l :: r).length (l :: r)).2).2)
         else
          (tableTok tabs
             :: (extractGo f (tabs + 1)
               (collectNGo (l :: r).length (l :: r)).2).1,
           joinNl (collectNGo (l :: r).length (l :: r)).1
             :: (extractGo f (tabs + 1)
               (collectNGo (l :: r).length (l :: r)).2).2)) := by
  simp [extractGo, hnh, hds]

/-- C10: a table data row that is begun (a line starting with one pipe
but not two) and whose joined continuation lines never end with the
closing pipe before the table terminates or the input ends is omitted
entirely, in both collection loops: (i) in a headered table whose
malformed trailing row runs to the end of the input, the extractor
returns only the placeholder and only the well-formed table text;
(ii) in a headered table whose malformed row's join is terminated by a
new header line, the malformed text is dropped while both surrounding
tables are extracted intact; (iii) in a headerless table whose
malformed trailing row runs to the end of the input, again only the
placeholder and the well-formed table text remain.  In every case the
malformed row's text appears neither in the returned text nor in any
extracted table string. -/
theorem c10_malformed_row_dropped (hd : List Str) (rows : List (List Str))
    (hd2 : List Str) (rows2 : List (List Str)) (bl : Str) (bls : List Str)
    (hh : wfHeader hd) (hw : ∀ r ∈ rows, wfRow r) (h0 : rows ≠ [])
    (hh2 : wfHeader hd2) (hw2 : ∀ r ∈ rows2, wfRow r) (h02 : rows2 ≠ [])
    (hbd : isDataStart bl = true) (hbe : endsPipe bl = false)
    (hbls : ∀ l ∈ bls, startsPipe l = false ∧ l ≠ [] ∧ endsPipe l = false)
    (hnl : ∀ l ∈ bl :: bls, '\n' ∉ l) :
    extractJIRATables (tableText hd rows ++ '\n' :: joinNl (bl :: bls))
        = (tableTok 0, [tableText hd rows]) ∧
      extractJIRATables (tableText hd rows ++ '\n' :: joinNl (bl :: bls)
          ++ '\n' :: tableText hd2 rows2)
        = (tableTok 0 ++ '\n' :: tableTok 1,
           [tableText hd rows, tableText hd2 rows2]) ∧
      extractJIRATables (headerlessText rows ++ '\n' :: joinNl (bl :: bls))
        = (tableTok 0, [headerlessText rows]) := by
  have hbls' : ∀ l ∈ bls, isHeaderForm l = false ∧ endsPipe l = false := by
    intro l hl
    obtain ⟨ha, hb, hc⟩ := hbls l hl
    exact ⟨headerForm_false_of_not_pipe l ha, hc⟩
  have hsp1 := splitNl_tableText hd rows hh hw h0
  have hsp2 : splitNl (joinNl (bl :: bls)) = bl :: bls :=
    splitCh_joinCh '\n' (bl :: bls) (by simp) hnl
  refine ⟨?_, ?_, ?_⟩
  · have hsp : splitNl (tableText hd rows ++ '\n' :: joinNl (bl :: bls))
        = headerText hd :: (rowsLines rows ++ bl :: bls) := by
      rw [show splitNl (tableText hd rows ++ '\n' :: joinNl (bl :: bls))
          = splitNl (tableText hd rows) ++ splitNl (joinNl (bl :: bls))
        from splitCh_append_cons '\n' _ _, hsp1, hsp2]
      rfl
    rw [extractJIRATables_eq, hsp,
      show (headerText hd :: (rowsLines rows ++ bl :: bls)).length
        = (rowsLines rows ++ bl :: bls).length + 1 from by simp,
      extractGo_header _ 0 _ _ (headerText_isHeader hd)]
    have hcol := collectHGo_rows rows (rowsLines rows ++ bl :: bls).length
      (bl :: bls) hw (by
        have := rowsLines_length rows
        simp only [List.length_append, List.length_cons]
        omega)
    obtain ⟨g, hg⟩ : ∃ g, (rowsLines rows ++ bl :: bls).length - rows.length
        = g + 1 := by
      have := rowsLines_length rows
      refine ⟨(rowsLines rows ++ bl :: bls).length - rows.length - 1, ?_⟩
      simp only [List.length_append, List.length_cons]
      omega
    rw [hg, collectHGo_bad bl bls g hbd hbe hbls'] at hcol
    rw [hcol]
    show (joinNl (tableTok 0 :: (extractGo (rowsLines rows ++ bl :: bls).length
          1 ([] : List Str)).1),
        joinNl (headerText hd :: (rows.map rowText ++ []))
          :: (extractGo (rowsLines rows ++ bl :: bls).length 1
            ([] : List Str)).2)
      = (tableTok 0, [tableText hd rows])
    rw [extractGo_nil, List.append_nil]
    rfl
  · have hspB : splitNl (tableText hd rows ++ '\n' :: joinNl (bl :: bls)
        ++ '\n' :: tableText hd2 rows2)
        = headerText hd :: (rowsLines rows
            ++ (bl :: (bls ++ headerText hd2 :: rowsLines rows2))) := by
      rw [show splitNl (tableText hd rows ++ '\n' :: joinNl (bl :: bls)
            ++ '\n' :: tableText hd2 rows2)
          = splitNl (tableText hd rows ++ '\n' :: joinNl (bl :: bls))
            ++ splitNl (tableText hd2 rows2)
        from splitCh_append_cons '\n' _ _,
        show splitNl (tableText hd rows ++ '\n' :: joinNl (bl :: bls))
          = splitNl (tableText hd rows) ++ splitNl (joinNl (bl :: bls))
        from splitCh_append_cons '\n' _ _,
        hsp1, hsp2, splitNl_tableText hd2 rows2 hh2 hw2 h02]
      simp
    rw [extractJIRATables_eq, hspB,
      show (headerText hd :: (rowsLines rows
          ++ (bl :: (bls ++ headerText hd2 :: rowsLines rows2)))).length
        = (rowsLines rows
          ++ (bl :: (bls ++ headerText hd2 :: rowsLines rows2))).length + 1
      from by simp,
      extractGo_header _ 0 _ _ (headerText_isHeader hd)]
    have hcol := collectHGo_rows rows
      (rowsLines rows
        ++ (bl :: (bls ++ headerText hd2 :: rowsLines rows2))).length
      (bl :: (bls ++ headerText hd2 :: rowsLines rows2)) hw (by
        have := rowsLines_length rows
        simp only [List.length_append, List.length_cons]
        omega)
    obtain ⟨g, hg⟩ : ∃ g, (rowsLines rows
        ++ (bl :: (bls ++ headerText hd2 :: rowsLines rows2))).length
        - rows.length = g + 1 := by
      have := rowsLines_length rows
      refine ⟨(rowsLines rows
        ++ (bl :: (bls ++ headerText hd2 :: rowsLines rows2))).length
        - rows.length - 1, ?_⟩
      simp only [List.length_append, List.length_cons]
      omega
    rw [hg, collectHGo_badstop bl bls g hbd hbe hbls' (headerText hd2)
      (rowsLines rows2) (headerText_isHeader hd2)] at hcol
    have hcol2 : collectHGo (rowsLines rows
        ++ (bl :: (bls ++ headerText hd2 :: rowsLines rows2))).length
        (rowsLines rows ++ (bl :: (bls ++ headerText hd2 :: rowsLines rows2)))
        = (rows.map rowText ++ [], headerText hd2 :: rowsLines rows2) := hcol
    rw [hcol2]
    show (joinNl (tableTok 0 :: (extractGo (rowsLines rows
          ++ (bl :: (bls ++ headerText hd2 :: rowsLines rows2))).length 1
          (headerText hd2 :: rowsLines rows2)).1),
        joinNl (headerText hd :: (rows.map rowText ++ []))
          :: (extractGo (rowsLines rows
            ++ (bl :: (bls ++ headerText hd2 :: rowsLines rows2))).length 1
            (headerText hd2 :: rowsLines rows2)).2)
      = (tableTok 0 ++ '\n' :: tableTok 1,
         [tableText hd rows, tableText hd2 rows2])
    rw [extractGo_table (rowsLines rows
        ++ (bl :: (bls ++ headerText hd2 :: rowsLines rows2))).length 1
      hd2 rows2 hw2 (by
        simp only [List.length_append, List.length_cons]
        omega),
      List.append_nil]
    rfl
  · cases rows with
    | nil => exact absurd rfl h0
    | cons r0 rest3 =>
      obtain ⟨l1, ls, hsp0, hds, hnh, _⟩ :=
        joinRow (fun _ => false) r0 (hw r0 (by simp)) (fun _ _ _ => rfl)
      have hlines : rowsLines (r0 :: rest3) ++ bl :: bls
          = l1 :: ((ls ++ rowsLines rest3) ++ bl :: bls) := by
        rw [rowsLines_cons, hsp0]
        simp
      have hspC : splitNl (headerlessText (r0 :: rest3)
          ++ '\n' :: joinNl (bl :: bls))
          = rowsLines (r0 :: rest3) ++ bl :: bls := by
        rw [show splitNl (headerlessText (r0 :: rest3)
              ++ '\n' :: joinNl (bl :: bls))
            = splitNl (headerlessText (r0 :: rest3))
              ++ splitNl (joinNl (bl :: bls))
          from splitCh_append_cons '\n' _ _,
          show headerlessText (r0 :: rest3)
            = joinNl ((r0 :: rest3).map rowText) from rfl,
          splitNl_rows _ hw (by simp), hsp2]
      have hcolC := collectNGo_rows (r0 :: rest3)
        (rowsLines (r0 :: rest3) ++ bl :: bls).length (bl :: bls) hw (by
          have := rowsLines_length (r0 :: rest3)
          simp only [List.length_append, List.length_cons] at this ⊢
          omega)
      obtain ⟨g, hg⟩ : ∃ g, (rowsLines (r0 :: rest3) ++ bl :: bls).length
          - (r0 :: rest3).length = g + 1 := by
        have := rowsLines_length (r0 :: rest3)
        refine ⟨(rowsLines (r0 :: rest3) ++ bl :: bls).length
          - (r0 :: rest3).length - 1, ?_⟩
        simp only [List.length_append, List.length_cons] at this ⊢
        omega
      rw [hg, collectNGo_bad bl bls g hbd hbe hbls] at hcolC
      have hcolC2 : collectNGo (rowsLines (r0 :: rest3) ++ bl :: bls).length
          (rowsLines (r0 :: rest3) ++ bl :: bls)
          = ((r0 :: rest3).map rowText, []) := by
        rw [hcolC]
        simp
      rw [extractJIRATables_eq, hspC, hlines,
        show (l1 :: ((ls ++ rowsLines rest3) ++ bl :: bls)).length
          = ((ls ++ rowsLines rest3) ++ bl :: bls).length + 1 from rfl,
        extractGo_data ((ls ++ rowsLines rest3) ++ bl :: bls).length 0 l1 _
          hnh hds, ← hlines, hcolC2]
      rw [if_neg (by simp)]
      show (joinNl (tableTok 0 :: (extractGo ((ls ++ rowsLines rest3)
            ++ bl :: bls).length 1 ([] : List Str)).1),
          joinNl ((r0 :: rest3).map rowText)
            :: (extractGo ((ls ++ rowsLines rest3) ++ bl :: bls).length 1
              ([] : List Str)).2)
        = (tableTok 0, [headerlessText (r0 :: rest3)])
      rw [extractGo_nil]
      rfl

theorem c10_malformed_row_dropped_witness :
    extractJIRATables (str "||H1||\n|A|\n|bad")
        = (str "__TABLE_0__", [str "||H1||\n|A|"]) ∧
      extractJIRATables (str "||H1||\n|A|\n|bad\n||H2||\n|B|")
        = (str "__TABLE_0__\n__TABLE_1__",
           [str "||H1||\n|A|", str "||H2||\n|B|"]) ∧
      extractJIRATables (str "|A|\n|bad")
        = (str "__TABLE_0__", [str "|A|"]) := by
  have h := c10_malformed_row_dropped [str "H1"] [[str "A"]]
    [str "H2"] [[str "B"]] (str "|bad") []
    (by decide) (by decide) (by decide) (by decide) (by decide) (by decide)
    (by decide) (by decide) (by decide) (by decide)
  exact ⟨h.1, h.2.1, h.2.2⟩